import Mathlib

/-!
# A verification model of the NetDim network engine (`network.py`)

This file gives a shallow embedding, in Lean 4, of the path-computation and
routing-table machinery of the NetDim `Network` class: the graph store with
per-direction trunk attributes, the shortest-path kernel (Dijkstra, A*,
Bellman-Ford, Floyd-Warshall), the protocol routers (OSPF, IS-IS), the
load-balancing RFT builder, the RFT-driven traffic distributor, and the
disjoint-pair algorithms (Bhandari, Suurballe).

Modelling conventions:
* Python floats are modelled by exact arithmetic: link costs by `EInt`
  (integers extended with the `float("inf")` element that the algorithms
  create and compare against) and traffic shares by `Frac` (unnormalized
  integer fractions, closed under the `share /= len(routes)` division).
* Nodes are `Nat` identifiers, trunks are records carrying their endpoints;
  mutable per-direction attributes (`costSD/costDS`, `flowSD/flowDS`,
  `trafficSD/trafficDS`) live in a `Net` record that the state-mutating
  algorithms thread explicitly.
* Python's unbounded `while heap:` loops become fuel-indexed iterations of an
  explicit step function (`iterStep`); exhausted fuel yields `none`.  Loops
  the source is known to exit are folds.
* Python `set` iteration order is unspecified; the embedding fixes the order
  to list order (insertion order), and heap ties are popped first-in
  first-out.  No claim settled here depends on a different tie order.
* The classes `objects.py` / `AS.py` are not part of the sources; the few
  attributes the algorithms read from them (directional attribute selection,
  area membership sets, border routers) are modelled from the spec where
  noted.
-/

namespace NetDim

/-- Extended integers: the value domain of link costs.  `inf` models Python's
`float("inf")`, which `bhandari`/`suurbale` assign to link costs and which
Dijkstra/Bellman-Ford use as the initial distance. -/
inductive EInt where
  | inf : EInt
  | val (x : Int) : EInt
deriving DecidableEq, Repr

/-- Addition on extended integers; `inf` is absorbing, as for IEEE `inf`
in the additions the source performs. -/
def EInt.add : EInt → EInt → EInt
  | .inf, _ => .inf
  | .val _, .inf => .inf
  | .val a, .val b => .val (a + b)

instance : Add EInt := ⟨EInt.add⟩

/-- Strict comparison, as `dist_neighbor < dist[neighbor]` compares floats:
every finite value is below `inf`, and `inf < inf` is false. -/
def EInt.blt : EInt → EInt → Bool
  | .inf, _ => false
  | .val _, .inf => true
  | .val a, .val b => decide (a < b)

/-- Non-strict comparison, used to order the binary heap. -/
def EInt.ble : EInt → EInt → Bool
  | _, .inf => true
  | .inf, .val _ => false
  | .val a, .val b => decide (a ≤ b)

instance : OfNat EInt n := ⟨.val (Int.ofNat n)⟩

/-- Unnormalized integer fractions: the value domain of traffic shares.
Python manipulates shares as floats; the embedding keeps them exact, which is
within the spec's stated 1e-9 tolerance.  The denominator is kept positive by
construction (divisors are entry counts). -/
structure Frac where
  num : Int
  den : Int
deriving DecidableEq, Repr

/-- Exact addition of shares. -/
def Frac.add (a b : Frac) : Frac := ⟨a.num * b.den + b.num * a.den, a.den * b.den⟩

/-- `share /= len(routes)`: division of a share by an entry count. -/
def Frac.divN (a : Frac) (n : Nat) : Frac := ⟨a.num, a.den * (Int.ofNat n)⟩

/-- Equality of shares as rational numbers (cross multiplication). -/
def Frac.eqv (a b : Frac) : Prop := a.num * b.den = b.num * a.den

instance : DecidablePred (fun p : Frac × Frac => p.1.eqv p.2) := by
  intro p; unfold Frac.eqv; infer_instance

instance (a b : Frac) : Decidable (a.eqv b) := by
  unfold Frac.eqv; infer_instance

/-- A trunk (physical link): identifier plus its two fixed endpoints.
`src`/`dst` are the `source`/`destination` attributes that all the
`SD`/`DS` directional lookups consult. -/
structure Trunk where
  tid : Nat
  src : Nat
  dst : Nat
deriving DecidableEq, Repr

/-- The network state: the node pool, the trunk pool, and the per-direction
trunk attributes that the algorithms read and mutate, indexed by trunk id.
Static per-trunk data (subnetwork id, interface ids, ip ids, area sets) and
the AS membership sets are also carried here.  `ipS/ipD/intS/intD` stand for
`ipaddressS/D` and `interfaceS/D`; their values are opaque tokens, the
algorithms only copy them around.  `routes` is the pool of (unidirectional)
route links with their single `cost` in `routeCost`, and `trunkHasAS` is the
truthiness of a trunk's `AS` attribute, both read by `traffic_routing`. -/
structure Net where
  nodes : List Nat
  trunks : List Trunk
  costSD : Nat → EInt
  costDS : Nat → EInt
  flowSD : Nat → EInt
  flowDS : Nat → EInt
  sntw : Nat → Nat
  ipS : Nat → Nat
  ipD : Nat → Nat
  intS : Nat → Nat
  intD : Nat → Nat
  trunkAreas : Nat → List Nat
  nodeAreas : Nat → List Nat
  asNodes : List Nat
  asTrunks : List Nat
  routes : List Trunk
  routeCost : Nat → EInt
  trunkHasAS : Nat → Bool

/-- The other endpoint of a trunk, as seen from node `n`
(`neighbor` in the adjacency pairs `self.graph[node]["trunk"]`). -/
def Trunk.other (t : Trunk) (n : Nat) : Nat :=
  if n = t.src then t.dst else t.src

/-- Adjacency of a node: the trunks incident to it, in pool order.  This is
`self.graph[node]["trunk"]` (a Python set of `(neighbor, trunk)` pairs);
the embedding fixes the unspecified set order to trunk-pool order. -/
def Net.adj (g : Net) (n : Nat) : List Trunk :=
  g.trunks.filter (fun t => n = t.src || n = t.dst)

/-- Directional cost lookup `adj_trunk("cost", node)`: traversing a trunk
from its `source` side reads `costSD`, else `costDS`.  (The `__call__` of
the trunk class is outside the sources; modelled from the spec: "traversing
a trunk from its `source` side uses `costSD`, else `costDS`".) -/
def Net.dirCost (g : Net) (t : Trunk) (n : Nat) : EInt :=
  if n = t.src then g.costSD t.tid else g.costDS t.tid

/-- Side-qualified ip lookup `trunk("ipaddress", node)` (same selection rule
as `Net.dirCost`, modelled from the spec). -/
def Net.dirIp (g : Net) (t : Trunk) (n : Nat) : Nat :=
  if n = t.src then g.ipS t.tid else g.ipD t.tid

/-- Side-qualified interface lookup `trunk("interface", node)` (same
selection rule as `Net.dirCost`, modelled from the spec). -/
def Net.dirInt (g : Net) (t : Trunk) (n : Nat) : Nat :=
  if n = t.src then g.intS t.tid else g.intD t.tid

/-! ## A generic fuel-indexed loop

Each `while heap:` loop of the source becomes a step function
`σ → σ ⊕ α` (either a next state or the loop's result) iterated with fuel.
-/

/-- Iterate a loop body `st` for at most `n` steps from state `s`; `none`
means the fuel ran out before the loop returned. -/
def iterStep (st : σ → σ ⊕ α) : Nat → σ → Option α
  | 0, _ => none
  | n + 1, s =>
    match st s with
    | .inr a => some a
    | .inl s' => iterStep st n s'

/-! ## The binary heap

`heapq` pops the least element; ties between equal keys are broken by the
(unspecified) comparison of the remaining tuple components.  The embedding
keeps the heap as a list sorted by key, new entries going after equal keys,
so pops are first-in first-out among ties. -/

/-- Insert an entry into a key-sorted list, after all entries with a key
less than or equal to its own. -/
def hins (key : α → EInt) (x : α) : List α → List α
  | [] => [x]
  | y :: ys => if (key y).ble (key x) then y :: hins key x ys else x :: y :: ys

def pushAll (key : α → EInt) (f : β → Option α) : List β → List α → List α
  | [], h => h
  | b :: bs, h =>
    match f b with
    | none => pushAll key f bs h
    | some x => pushAll key f bs (hins key x h)

/-! ## Dijkstra (`Network.dijkstra`, lines 302-350)

The allowed-node/allowed-trunk parameters are at their defaults (the whole
pools), as in every call the settled claims exercise. -/

/-- Minimum of two extended integers; on ties Python's `min` keeps the first
argument. -/
def EInt.emin (a b : EInt) : EInt := if b.blt a then b else a

/-- The mutable state of Dijkstra's `while heap:` loop. -/
structure DijkState where
  heap : List (EInt × Nat)
  visited : List Nat
  dist : Nat → EInt
  precN : Nat → Option Nat
  precL : Nat → Option Trunk

/-- Body of the `for neighbor, adj_trunk in self.graph[node]["trunk"]` loop:
relax each incident trunk from the popped node, updating `dist`, the
predecessor maps and the heap. -/
def dijkstraVisit (g : Net) (dn : EInt) (node : Nat) :
    List Trunk → DijkState → DijkState
  | [], s => s
  | t :: ts, s =>
    let nb := t.other node
    let dnb := dn + g.dirCost t node
    let s' :=
      if dnb.blt (s.dist nb) then
        { s with
          dist := fun i => if i = nb then dnb else s.dist i
          precN := fun i => if i = nb then some node else s.precN i
          precL := fun i => if i = nb then some t else s.precL i
          heap := hins Prod.fst (dnb, nb) s.heap }
      else s
    dijkstraVisit g dn node ts s'

/-- One iteration of Dijkstra's main loop: pop the least entry, skip it if
already visited, otherwise mark it visited and relax its neighbors. -/
def dijkstraStep (g : Net) (s : DijkState) : DijkState ⊕ DijkState :=
  match s.heap with
  | [] => .inr s
  | (dn, node) :: rest =>
    if node ∈ s.visited then .inl { s with heap := rest }
    else
      .inl (dijkstraVisit g dn node (g.adj node)
        { s with heap := rest, visited := node :: s.visited })

/-- Initial Dijkstra state: `dist[source] = 0`, everything else infinite,
heap `[(0, source)]`. -/
def dijkstraInit (source : Nat) : DijkState :=
  { heap := [(.val 0, source)]
    visited := []
    dist := fun i => if i = source then .val 0 else .inf
    precN := fun _ => none
    precL := fun _ => none }

/-- Run Dijkstra's main loop to completion (`none` = fuel exhausted). -/
def dijkstraRun (g : Net) (source : Nat) (fuel : Nat) : Option DijkState :=
  iterStep (dijkstraStep g) fuel (dijkstraInit source)

/-- The path traceback (lines 339-342):

    curr, path_link = target, [prec_link[target]]
    while curr != source:
        curr = prec_node[curr]
        path_link.append(prec_link[curr])

When `prec_node[curr]` is `None` (target unreachable from the source), the
following `prec_link[None]` lookup raises a `KeyError`; the embedding returns
that error.  The accumulator is built head-first, so it ends up equal to the
reverse of Python's `path_link`. -/
def traceGo (precN : Nat → Option Nat) (precL : Nat → Option Trunk)
    (source : Nat) : Nat → Nat → List (Option Trunk) →
    Option (Except String (List (Option Trunk)))
  | 0, _, _ => none
  | fuel + 1, curr, acc =>
    if curr = source then some (.ok acc)
    else
      match precN curr with
      | none => some (.error ("KeyError"))
      | some c => traceGo precN precL source fuel c (precL c :: acc)

/-- Result of a completed `dijkstra` call: the distance map, the source→target
path and the shortest-path-tree edges (`filter(None, prec_link.values())`). -/
structure DijkRes where
  dist : Nat → EInt
  path : List Trunk
  tree : List Trunk

/-- `Network.dijkstra`: main loop, then traceback.  `path_link[:-1][::-1]`
is the head-first accumulator with its first entry dropped.  The outer
`none` is exhausted fuel; the inner `Except` carries the `KeyError` the
traceback raises on an unreachable target. -/
def dijkstra (g : Net) (source target : Nat) (fuel : Nat) :
    Option (Except String DijkRes) :=
  match dijkstraRun g source fuel with
  | none => none
  | some s =>
    match traceGo s.precN s.precL source fuel target [s.precL target] with
    | none => none
    | some (.error e) => some (.error e)
    | some (.ok acc) =>
      some (.ok ⟨s.dist, (acc.drop 1).filterMap id, g.nodes.filterMap s.precL⟩)

/-! ## Floyd-Warshall (`Network.floyd_warshall`, lines 657-685) -/

/-- The initial all-pairs matrix: diagonal 0; otherwise the `costSD` of the
first trunk found between the two nodes — the source reads `trunk.costSD`
for both directions (line 667) — or `inf` when not adjacent. -/
def fwInit (g : Net) (n1 n2 : Nat) : EInt :=
  if n1 = n2 then .val 0
  else
    match (g.adj n1).find? (fun t => t.other n1 = n2) with
    | some t => g.costSD t.tid
    | none => .inf

/-- The triple relaxation loop, updating the matrix in place like the
source's nested `for k/u/v` loops. -/
def fwFold (g : Net) : Nat → Nat → EInt :=
  g.nodes.foldl
    (fun W k =>
      g.nodes.foldl
        (fun W1 u =>
          g.nodes.foldl
            (fun W2 v =>
              fun a b =>
                if a = u ∧ b = v then (W2 u v).emin ((W2 u k) + (W2 k v))
                else W2 a b)
            W1)
        W)
    (fwInit g)

/-- `Network.floyd_warshall`: the relaxed matrix, or `none` (the source
returns `False`) when some diagonal entry went negative. -/
def floyd_warshall (g : Net) : Option (Nat → Nat → EInt) :=
  let W := fwFold g
  if g.nodes.any (fun v => (W v v).blt (.val 0)) then none else some W

/-! ## A* (`Network.A_star`, lines 354-405)

Exclusion sets and allowed sets are at their defaults (none excluded, whole
pools allowed), as in the calls the settled claims exercise.  The constraint
stack `pc` is stored top-first (the top is Python's `pc[-1]`). -/

/-- A heap entry of the A* search: accumulated distance, current node, the
node and trunk paths so far, and the remaining constraint stack. -/
structure AStarEntry where
  dist : EInt
  node : Nat
  nodes : List Nat
  trunks : List Trunk
  pc : List Nat

/-- The state of the A* `while heap:` loop. -/
structure AStarState where
  heap : List AStarEntry
  visited : List Nat

/-- Push all neighbor extensions of an entry (the inner `for` loop). -/
def aStarPush (g : Net) (e : AStarEntry) (pc : List Nat) (h : List AStarEntry) :
    List AStarEntry :=
  pushAll (fun x => x.dist)
    (fun t => some
      { dist := e.dist + g.dirCost t e.node
        node := t.other e.node
        nodes := e.nodes ++ [t.other e.node]
        trunks := e.trunks ++ [t]
        pc := pc })
    (g.adj e.node) h

/-- One iteration of the A* loop.  Reaching the top constraint clears the
visited set and the heap, pops the constraint, and returns the paths when no
constraint is left; an empty heap returns `([], [])`. -/
def aStarStep (g : Net) (s : AStarState) :
    AStarState ⊕ (List Nat × List Trunk) :=
  match s.heap with
  | [] => .inr ([], [])
  | e :: rest =>
    if e.node ∈ s.visited then .inl { s with heap := rest }
    else
      match e.pc with
      | [] => .inr ([], [])
      | top :: pcrest =>
        if e.node = top then
          if pcrest = [] then .inr (e.nodes, e.trunks)
          else .inl { heap := aStarPush g e pcrest [], visited := [] }
        else
          .inl { heap := aStarPush g e e.pc rest, visited := e.node :: s.visited }

/-- `Network.A_star` without waypoint constraints (`path_constraints = []`,
so the constraint stack is just `[target]`), the form every caller settled
here uses.  `none` = fuel exhausted. -/
def A_star (g : Net) (source target : Nat) (fuel : Nat) :
    Option (List Nat × List Trunk) :=
  iterStep (aStarStep g) fuel
    { heap := [⟨.val 0, source, [source], [], [target]⟩], visited := [] }

/-! ## Bellman-Ford (`Network.bellman_ford`, lines 600-653)

Exclusion/allowed sets at their defaults.  The source runs `n+2` full passes
(`n = len(allowed_nodes)`) and then traces the predecessor maps back from
the target; with a negative cycle in range of the target the predecessor
maps can be cyclic and the traceback `while` loop never terminates, which
the fuel-indexed embedding reports as `none`. -/

/-- The distance and predecessor maps the relaxation passes build. -/
structure BFMaps where
  dist : Nat → EInt
  precN : Nat → Option Nat
  precL : Nat → Option Trunk

/-- Relax all arcs out of one node (the inner neighbor loop of a pass). -/
def bfRelaxNode (g : Net) (node : Nat) : List Trunk → BFMaps → BFMaps
  | [], m => m
  | t :: ts, m =>
    let nb := t.other node
    let dn := m.dist node + g.dirCost t node
    let m' :=
      if dn.blt (m.dist nb) then
        { dist := fun i => if i = nb then dn else m.dist i
          precN := fun i => if i = nb then some node else m.precN i
          precL := fun i => if i = nb then some t else m.precL i }
      else m
    bfRelaxNode g node ts m'

/-- One full pass over all nodes. -/
def bfPass (g : Net) (m : BFMaps) : BFMaps :=
  g.nodes.foldl (fun acc node => bfRelaxNode g node (g.adj node) acc) m

/-- All `n+2` passes from the initial maps. -/
def bfMaps (g : Net) (source : Nat) : BFMaps :=
  (List.range (g.nodes.length + 2)).foldl (fun m _ => bfPass g m)
    { dist := fun i => if i = source then .val 0 else .inf
      precN := fun _ => none
      precL := fun _ => none }

/-- The Bellman-Ford traceback loop (lines 646-650), fuel-indexed because
cyclic predecessor maps make it loop forever. -/
def bfTraceGo (precN : Nat → Option Nat) (precL : Nat → Option Trunk)
    (source : Nat) : Nat → Nat → List Nat → List (Option Trunk) →
    Option (Except String (List Nat × List (Option Trunk)))
  | 0, _, _, _ => none
  | fuel + 1, curr, accN, accL =>
    if curr = source then some (.ok (accN, accL))
    else
      match precN curr with
      | none => some (.error ("KeyError"))
      | some c => bfTraceGo precN precL source fuel c (c :: accN) (precL c :: accL)

/-- `Network.bellman_ford`: `([], [])` if the target's distance stayed
infinite, otherwise the traceback of the predecessor maps. -/
def bellman_ford (g : Net) (source target : Nat) (fuel : Nat) :
    Option (Except String (List Nat × List Trunk)) :=
  let m := bfMaps g source
  if m.dist target = .inf then some (.ok ([], []))
  else
    match bfTraceGo m.precN m.precL source fuel target [target] [m.precL target] with
    | none => none
    | some (.error e) => some (.error e)
    | some (.ok (an, al)) => some (.ok (an, (al.drop 1).filterMap id))

/-! ## Traffic routing (`Network.traffic_routing`, lines 567-596) -/

/-- A link as `traffic_routing` sees it: a trunk or a (unidirectional)
route. -/
structure TLink where
  isRoute : Bool
  link : Trunk
deriving DecidableEq, Repr

/-- The combined adjacency
`self.graph[node]["trunk"] | self.graph[node]["route"]` (both kinds are
registered under both endpoints by the link factory). -/
def Net.adjTR (g : Net) (n : Nat) : List TLink :=
  (g.adj n).map (fun t => ⟨false, t⟩) ++
    ((g.routes.filter (fun t => n = t.src || n = t.dst)).map (fun t => ⟨true, t⟩))

/-- Walk helper: the neighbor reached over a `TLink`. -/
def TLink.other (l : TLink) (n : Nat) : Nat := l.link.other n

/-- A heap entry of `traffic_routing`. -/
structure TRideEntry where
  dist : EInt
  node : Nat
  path : List TLink

/-- The push loop of `traffic_routing`.  It skips trunks inside an AS and
routes whose source is not the current node; note that the source mutates
`dist` itself (`dist += getattr(adj_link, cost)`, line 595), so the cost of
every pushed link of one iteration accumulates into the next push.  The
fold threads that accumulating distance faithfully. -/
def trafficPush (g : Net) (node : Nat) :
    List TLink → EInt → List TLink → List TRideEntry → List TRideEntry
  | [], _, _, h => h
  | l :: ls, d, path, h =>
    if l.isRoute = false && g.trunkHasAS l.link.tid then
      trafficPush g node ls d path h
    else if l.isRoute && l.link.src ≠ node then
      trafficPush g node ls d path h
    else
      let c := if l.isRoute then g.routeCost l.link.tid else g.dirCost l.link node
      let d' := d + c
      trafficPush g node ls d' path
        (hins (fun x => x.dist) ⟨d', l.other node, path ++ [l]⟩ h)

/-- One iteration of the `traffic_routing` loop.  Reaching the target
returns `some ([], path)`; running out of heap falls off the function body,
which in Python returns `None` — embedded as `.inr none`. -/
def trafficStep (g : Net) (target : Nat) (s : List TRideEntry × List Nat) :
    (List TRideEntry × List Nat) ⊕ Option (List Nat × List TLink) :=
  match s.1 with
  | [] => .inr none
  | e :: rest =>
    if e.node ∈ s.2 then .inl (rest, s.2)
    else if e.node = target then .inr (some ([], e.path))
    else
      .inl (trafficPush g e.node (g.adjTR e.node) e.dist e.path rest,
        e.node :: s.2)

/-- `Network.traffic_routing` for a traffic link with the given endpoints.
The outer `Option` is fuel; the inner `Option` is Python's implicit `None`
when no path exists (the function has no return statement after the loop). -/
def traffic_routing (g : Net) (source target : Nat) (fuel : Nat) :
    Option (Option (List Nat × List TLink)) :=
  iterStep (trafficStep g target) fuel ([⟨.val 0, source, []⟩], [])

/-! ## OSPF routing (`Network.OSPF_routing`, lines 478-560)

Area membership sets live on `Net.nodeAreas` / `Net.trunkAreas`; an area's
node/trunk pools (`area.pa["node"]`, `area.pa["trunk"]`) are the derived
membership predicates.  (`AS.py` is outside the sources; modelled from the
spec: every trunk inside an AS belongs to exactly the areas whose
member-trunk sets contain it, and vice versa for nodes.)  The backbone is
the area with id `bbId`. -/

/-- The id of the distinguished `Backbone` area. -/
def bbId : Nat := 0

/-- OSPF endpoint-area resolution (lines 500-510): an endpoint in more than
one area is treated as belonging to the backbone, an endpoint with exactly
one area yields that area, and the `source_area ,= source.AS[OSPF_AS]`
unpacking of an empty set raises — embedded as `none`. -/
def ospfArea (g : Net) (n : Nat) : Option Nat :=
  match g.nodeAreas n with
  | [] => none
  | [a] => some a
  | _ :: _ :: _ => some bbId

/-- A heap entry of the OSPF search: distance, node, trunk path, phase. -/
structure OspfEntry where
  dist : EInt
  node : Nat
  path : List Trunk
  step : Nat

/-- The state of the OSPF `while heap:` loop; a node may be re-expanded in
different phases, so the visited set is keyed by `(node, step)`. -/
structure OspfState where
  heap : List OspfEntry
  visited : List (Nat × Nat)

/-- Neighbor pushes of the OSPF search (lines 539-559): a trunk must be in
the AS and in the area of the current phase — the source area in phase 0,
the backbone in phase 1, the target area in phase 2. -/
def ospfPush (g : Net) (sa ta : Nat) (d : EInt) (node : Nat) (p : List Trunk)
    (step : Nat) (h : List OspfEntry) : List OspfEntry :=
  pushAll (fun e => e.dist)
    (fun t =>
      if (t.other node) ∈ g.asNodes ∧ t.tid ∈ g.asTrunks ∧
          (step = 0 → sa ∈ g.trunkAreas t.tid) ∧
          (step = 1 → bbId ∈ g.trunkAreas t.tid) ∧
          (step = 2 → ta ∈ g.trunkAreas t.tid) then
        some ⟨d + g.dirCost t node, t.other node, p ++ [t], step⟩
      else none)
    (g.adj node) h

/-- The phase advance at a popped node (lines 535-538): 0→1 when the node
belongs to the backbone, then 1→2 when it belongs to the target area. -/
def ospfNextStep (g : Net) (ta : Nat) (node step : Nat) : Nat :=
  let st1 := if step = 0 ∧ bbId ∈ g.nodeAreas node then 1 else step
  if st1 = 1 ∧ ta ∈ g.nodeAreas node then 2 else st1

/-- One iteration of the OSPF loop: pop, skip if `(node, step)` was seen,
return the path at the target, advance the phase, then push neighbors. -/
def ospfStep (g : Net) (target sa ta : Nat) (s : OspfState) :
    OspfState ⊕ (List Nat × List Trunk) :=
  match s.heap with
  | [] => .inr ([], [])
  | e :: rest =>
    if (e.node, e.step) ∈ s.visited then .inl { s with heap := rest }
    else if e.node = target then .inr ([], e.path)
    else
      .inl
        { heap := ospfPush g sa ta e.dist e.node e.path
            (ospfNextStep g ta e.node e.step) rest
          visited := (e.node, e.step) :: s.visited }

/-- `Network.OSPF_routing`.  The initial phase is 2 when source and target
areas coincide, 1 when the source area is the backbone, else 0
(`step = 2*(source_area == target_area) or source_area == backbone`). -/
def OSPF_routing (g : Net) (source target : Nat) (fuel : Nat) :
    Option (List Nat × List Trunk) :=
  match ospfArea g source, ospfArea g target with
  | some sa, some ta =>
    let step0 := if sa = ta then 2 else if sa = bbId then 1 else 0
    iterStep (ospfStep g target sa ta) fuel
      { heap := [⟨.val 0, source, [], step0⟩], visited := [] }
  | _, _ => none

/-! ## IS-IS routing (`Network.ISIS_routing`, lines 425-474)

`source_area ,= source.AS[ISIS_AS]` unpacks a singleton set; any other
cardinality raises, embedded as `none`.  `border_routers` is outside the
sources (`AS.py`); modelled from the spec: a border (L1/L2) router is a node
belonging to at least two areas of the AS. -/

/-- Exactly-one-area unpacking for IS-IS endpoints. -/
def isisArea (g : Net) (n : Nat) : Option Nat :=
  match g.nodeAreas n with
  | [a] => some a
  | _ => none

/-- Border routers: nodes in at least two areas (modelled from the spec). -/
def isBorder (g : Net) (n : Nat) : Bool :=
  2 ≤ (g.nodeAreas n).length

/-- A heap entry of the IS-IS search. -/
structure IsisEntry where
  dist : EInt
  node : Nat
  path : List Trunk

/-- The state of the IS-IS loop; the phase flag `step` is a single function
level variable, not part of the heap entries. -/
structure IsisState where
  heap : List IsisEntry
  visited : List Nat
  step : Bool

/-- Neighbor pushes of the IS-IS search (lines 460-473): in phase `false`
only neighbors of the source area may be used; in phase `true` only
neighbors of the backbone or of the target area. -/
def isisPush (g : Net) (sa ta : Nat) (d : EInt) (node : Nat) (p : List Trunk)
    (step : Bool) (h : List IsisEntry) : List IsisEntry :=
  pushAll (fun e => e.dist)
    (fun t =>
      if (t.other node) ∈ g.asNodes ∧ t.tid ∈ g.asTrunks ∧
          (step = false → sa ∈ g.nodeAreas (t.other node)) ∧
          (step = true →
            (bbId ∈ g.nodeAreas (t.other node) ∨ ta ∈ g.nodeAreas (t.other node))) then
        some ⟨d + g.dirCost t node, t.other node, p ++ [t]⟩
      else none)
    (g.adj node) h

/-- One iteration of the IS-IS loop: pop, skip if visited, return at the
target; when still in phase `false` and the node is a border router, flip
the phase and clear the heap before pushing. -/
def isisStep (g : Net) (target sa ta : Nat) (s : IsisState) :
    IsisState ⊕ (List Nat × List Trunk) :=
  match s.heap with
  | [] => .inr ([], [])
  | e :: rest =>
    if e.node ∈ s.visited then .inl { s with heap := rest }
    else if e.node = target then .inr ([], e.path)
    else
      let flip := !s.step && isBorder g e.node
      let step' := if flip then true else s.step
      let base := if flip then [] else rest
      .inl
        { heap := isisPush g sa ta e.dist e.node e.path step' base
          visited := e.node :: s.visited
          step := step' }

/-- `Network.ISIS_routing`.  The initial phase is `true` iff the source area
is the backbone or the target area
(`step = source_area in (backbone, target_area)`). -/
def ISIS_routing (g : Net) (source target : Nat) (fuel : Nat) :
    Option (List Nat × List Trunk) :=
  match isisArea g source, isisArea g target with
  | some sa, some ta =>
    iterStep (isisStep g target sa ta) fuel
      { heap := [⟨.val 0, source, []⟩], visited := []
        step := sa == bbId || sa == ta }
  | _, _ => none

/-! ## The RFT builders (`static_RFT_builder`, lines 745-753, and
`RFT_LB_builder`, lines 823-919)

A routing table maps a destination subnetwork id to its set of entries
`(rtype, next_hop_ip, exit_interface, cost, next_hop_node, exit_trunk)`;
the Python set is embedded as a duplicate-free list in insertion order. -/

/-- One routing-table entry. -/
structure RTE where
  rtype : String
  nhip : Nat
  exint : Nat
  cost : EInt
  nh : Nat
  extk : Trunk
deriving DecidableEq, Repr

/-- A routing table, keyed by destination subnetwork. -/
def RTmap : Type := Nat → Option (List RTE)

/-- Python `set.add`: append unless already present. -/
def rtAdd (l : List RTE) (e : RTE) : List RTE :=
  if e ∈ l then l else l ++ [e]

/-- `Network.static_RFT_builder`: one connected (`"C"`) route per trunk
incident to the source, keyed by the trunk's subnetwork, with the
neighbor-side ip and the source-side interface. -/
def static_RFT_builder (g : Net) (source : Nat) : RTmap :=
  (g.adj source).foldl
    (fun rt t =>
      let nb := t.other source
      fun n =>
        if n = g.sntw t.tid then
          some [⟨"C", g.dirIp t nb, g.dirInt t source, .val 0, nb, t⟩]
        else rt n)
    (fun _ => none)

/-- The tables the LB builder threads through its insertion block: the
`visited_subnetworks` set, the routing table, and the `SP_cost` map. -/
structure LBTab where
  vsn : List (String × Nat)
  rt : RTmap
  sp : Nat → Option EInt

/-- Update one key of a routing table. -/
def rtSet (rt : RTmap) (n : Nat) (l : List RTE) : RTmap :=
  fun i => if i = n then some l else rt i

/-- The insertion block of `RFT_LB_builder` (lines 862-904), run for every
trunk incident to the popped node (other than trunks leading back to the
source).  `exTk` is the first trunk of the popped path, `nh`/`exIp`/`exInt`
the derived next-hop data.

For `AS.type == "RIP"`: first reach inserts a singleton and records
`SP_cost`; later reaches add an ECMP entry only at equal cost below the cap
`K`.  (No branch replaces an entry on a strictly lower cost.)

For `AS.type == "OSPF"`: the route-type is `"O"` when the trunk shares an
area with the exit trunk, else `"O IA"`; the guard that should skip an
inter-area candidate against an intra-area entry compares `rtype == "IA"`
verbatim — `rtype` is never the string `"IA"`, so the guard never fires and
such candidates fall through to the equal-cost ECMP add.  The trailing
`visited_subnetworks` block (lines 898-904) then overwrites first-seen
`(rtype, sntw)` pairs with a fresh singleton. -/
def lbInsert (g : Net) (asType : String) (source : Nat) (K : Nat) (d : EInt)
    (node : Nat) (exTk : Trunk) (nh exIp exInt : Nat) :
    List Trunk → LBTab → LBTab
  | [], tab => tab
  | t :: ts, tab =>
    let nb := t.other node
    let sn := g.sntw t.tid
    let curr := d + g.dirCost t node
    let tab' :=
      if nb = source then tab
      else if asType = "RIP" then
        match tab.rt sn with
        | none =>
          { tab with
            rt := rtSet tab.rt sn [⟨"R", exIp, exInt, curr, nh, exTk⟩]
            sp := fun i => if i = sn then some curr else tab.sp i }
        | some l =>
          if tab.sp sn = some curr ∧ K > l.length then
            { tab with rt := rtSet tab.rt sn (rtAdd l ⟨"R", exIp, exInt, curr, nh, exTk⟩) }
          else tab
      else if asType = "OSPF" then
        let rty :=
          if (g.trunkAreas t.tid).any (fun a => a ∈ g.trunkAreas exTk.tid)
          then ("O") else ("O IA")
        let e : RTE := ⟨rty, exIp, exInt, curr, nh, exTk⟩
        let step1 : Option LBTab :=
          match tab.rt sn with
          | none =>
            some { tab with
                   rt := rtSet tab.rt sn [e]
                   sp := fun i => if i = sn then some curr else tab.sp i }
          | some l =>
            match l.head? with
            | none => some tab
            | some r0 =>
              if r0.rtype = "O" ∧ rty = "IA" then none
              else if r0.rtype = "O IA" ∧ rty = "O" then
                some { tab with
                       rt := rtSet tab.rt sn [e]
                       sp := fun i => if i = sn then some curr else tab.sp i }
              else if tab.sp sn = some curr ∧ K > l.length then
                some { tab with rt := rtSet tab.rt sn (rtAdd l e) }
              else some tab
        match step1 with
        | none => tab
        | some tab1 =>
          if (rty, sn) ∈ tab1.vsn then tab1
          else if (("O"), sn) ∈ tab1.vsn then tab1
          else
            { tab1 with
              vsn := (rty, sn) :: tab1.vsn
              rt := rtSet tab1.rt sn [e] }
      else tab
    lbInsert g asType source K d node exTk nh exIp exInt ts tab'

/-- A heap entry of the LB builder: distance, node, trunk path from the
source. -/
structure LBEntry where
  dist : EInt
  node : Nat
  path : List Trunk

/-- The full state of the LB builder loop. -/
structure LBState where
  heap : List LBEntry
  visited : List (Nat × List Trunk)
  tab : LBTab

/-- The expansion block of `RFT_LB_builder` (lines 905-919): skip trunks
already on the path; when the node is the source, (re)write the connected
route for the trunk; push neighbors that are in the AS. -/
def lbExpand (g : Net) (source : Nat) (d : EInt) (node : Nat) (p : List Trunk) :
    List Trunk → (List LBEntry × RTmap) → (List LBEntry × RTmap)
  | [], st => st
  | t :: ts, st =>
    if t ∈ p then lbExpand g source d node p ts st
    else
      let nb := t.other node
      let rt' :=
        if node = source then
          rtSet st.2 (g.sntw t.tid)
            [⟨"C", g.dirIp t nb, g.dirInt t source, d, nb, t⟩]
        else st.2
      let h' :=
        if nb ∈ g.asNodes ∧ t.tid ∈ g.asTrunks then
          hins (fun e => e.dist) ⟨d + g.dirCost t node, nb, p ++ [t]⟩ st.1
        else st.1
      lbExpand g source d node p ts (h', rt')

/-- One iteration of the LB builder loop: pop, skip if `(node, path)` was
seen, run the insertion block (for non-source nodes, using the first trunk
of the path as exit trunk), then the expansion block. -/
def lbStep (g : Net) (asType : String) (source : Nat) (K : Nat)
    (s : LBState) : LBState ⊕ RTmap :=
  match s.heap with
  | [] => .inr s.tab.rt
  | e :: rest =>
    if (e.node, e.path) ∈ s.visited then .inl { s with heap := rest }
    else
      let tab1 :=
        if e.node = source then s.tab
        else
          match e.path with
          | [] => s.tab
          | exTk :: _ =>
            let nh := if exTk.src = source then exTk.dst else exTk.src
            lbInsert g asType source K e.dist e.node exTk nh
              (g.dirIp exTk nh) (g.dirInt exTk source) (g.adj e.node) s.tab
      let (h', rt') := lbExpand g source e.dist e.node e.path (g.adj e.node)
        (rest, tab1.rt)
      .inl
        { heap := h'
          visited := (e.node, e.path) :: s.visited
          tab := { tab1 with rt := rt' } }

/-- `Network.RFT_LB_builder` run from a given starting routing table, with
ECMP cap `K` (default 4 in the source). -/
def RFT_LB_builder (g : Net) (asType : String) (source : Nat) (K : Nat)
    (rt0 : RTmap) (fuel : Nat) : Option RTmap :=
  iterStep (lbStep g asType source K) fuel
    { heap := [⟨.val 0, source, []⟩]
      visited := []
      tab := { vsn := [], rt := rt0, sp := fun _ => none } }

/-- The per-router pipeline of `calculate_all` (lines 197-200): the static
builder seeds the connected routes, then the LB builder fills the table. -/
def buildRFT (g : Net) (asType : String) (source : Nat) (K : Nat)
    (fuel : Nat) : Option RTmap :=
  RFT_LB_builder g asType source K (static_RFT_builder g source) fuel

/-! ## The RFT-driven traffic distributor (`RFT_path_finder`,
lines 716-740) -/

/-- The state of the `RFT_path_finder` work stack: pending `(router, share)`
pairs (top of the Python list = head here), the per-trunk directional
traffic counters, and the accumulated node/trunk path sets. -/
structure PFState where
  stack : List (Nat × Frac)
  trafSD : Nat → Frac
  trafDS : Nat → Frac
  pathN : List Nat
  pathT : List Trunk

/-- Distribute a share over the ECMP entries of a routing-table lookup: add
the per-entry share to the exit trunk's directional traffic counter (the
`SD` side iff the current router is the trunk's source) and push the next
hop. -/
def pfSpread (curr : Nat) (sh : Frac) : List RTE → PFState → PFState
  | [], s => s
  | e :: es, s =>
    let tk := e.extk
    let s' : PFState :=
      { stack := (e.nh, sh) :: s.stack
        trafSD := fun i =>
          if i = tk.tid ∧ curr = tk.src then (s.trafSD i).add sh else s.trafSD i
        trafDS := fun i =>
          if i = tk.tid ∧ ¬curr = tk.src then (s.trafDS i).add sh else s.trafDS i
        pathN := if e.nh ∈ s.pathN then s.pathN else s.pathN ++ [e.nh]
        pathT := if tk ∈ s.pathT then s.pathT else s.pathT ++ [tk] }
    pfSpread curr sh es s'

/-- One iteration of the `RFT_path_finder` loop.  A missing destination
subnetwork in the popped router's table is a raised exception: with the
routing table a plain dict the lookup raises `KeyError`; with a defaultdict
it yields the empty set and `share /= len(routes)` raises
`ZeroDivisionError`.  Either way the embedding stops with an error. -/
def pfStep (rt : Nat → RTmap) (destination destInt : Nat)
    (s : PFState) : PFState ⊕ Except String PFState :=
  match s.stack with
  | [] => .inr (.ok s)
  | (r, share) :: rest =>
    if r = destination then .inl { s with stack := rest }
    else
      match rt r destInt with
      | none => .inr (.error ("ZeroDivisionError"))
      | some [] => .inr (.error ("ZeroDivisionError"))
      | some l =>
        .inl (pfSpread r (share.divN l.length) l { s with stack := rest })

/-- `Network.RFT_path_finder` for a traffic demand, given the built routing
tables.  The destination subnetwork is the `sntw` of the first trunk found
incident to the destination; with no such trunk the loop variable `trunk`
is unbound and reading it raises `NameError` (line 721). -/
def RFT_path_finder (g : Net) (rt : Nat → RTmap) (source destination : Nat)
    (w : Frac) (fuel : Nat) : Option (Except String PFState) :=
  match g.adj destination with
  | [] => some (.error ("NameError"))
  | t :: _ =>
    iterStep (pfStep rt destination (g.sntw t.tid)) fuel
      { stack := [(source, w)]
        trafSD := fun _ => ⟨0, 1⟩
        trafDS := fun _ => ⟨0, 1⟩
        pathN := []
        pathT := [] }

/-! ## Observables of a traffic run

The conservation property talks about the total share placed on the trunks
leaving the demand's source.  `Frac.q` reads a share as a rational number,
`awayTraf` picks the directional counter of a trunk on the side pointing
away from a node (the side a pop of that node writes), and `outQ` sums
those counters over the node's incident trunks.  `stackQ` is the share
mass a node holds on the pending work stack; the conservation invariant
is `outQ + stackQ = w` at the source. -/

/-- The rational value of a share. -/
def Frac.q (f : Frac) : ℚ := (f.num : ℚ) / (f.den : ℚ)

/-- The directional traffic counter of a trunk on the side pointing away
from node `n` (`trafficSD` iff `n` is the trunk's source). -/
def awayTraf (st : PFState) (n : Nat) (t : Trunk) : Frac :=
  if n = t.src then st.trafSD t.tid else st.trafDS t.tid

/-- Total traffic leaving node `n`: the sum, over the trunks incident to
`n`, of the away-side directional counters. -/
def outQ (g : Net) (n : Nat) (st : PFState) : ℚ :=
  (g.trunks.map (fun t =>
    if n = t.src ∨ n = t.dst then Frac.q (awayTraf st n t) else 0)).sum

/-- The share mass node `n` holds on the pending work stack. -/
def stackQ (n : Nat) (st : PFState) : ℚ :=
  (st.stack.map (fun p => if p.1 = n then Frac.q p.2 else 0)).sum

/-- All denominators of a finder state are positive (true of every
reachable state: counters start at `0/1` and divisors are entry counts). -/
def densPos (st : PFState) : Prop :=
  (∀ i, 0 < (st.trafSD i).den ∧ 0 < (st.trafDS i).den) ∧
  (∀ p ∈ st.stack, 0 < (p : Nat × Frac).2.den)

/-- The single-entry step of `pfSpread` (the body of its `for` loop),
named so the spread can be peeled one entry at a time. -/
def pfPlace (curr : Nat) (sh : Frac) (e : RTE) (s : PFState) : PFState :=
  { stack := (e.nh, sh) :: s.stack
    trafSD := fun i =>
      if i = e.extk.tid ∧ curr = e.extk.src then (s.trafSD i).add sh
      else s.trafSD i
    trafDS := fun i =>
      if i = e.extk.tid ∧ ¬curr = e.extk.src then (s.trafDS i).add sh
      else s.trafDS i
    pathN := if e.nh ∈ s.pathN then s.pathN else s.pathN ++ [e.nh]
    pathT := if e.extk ∈ s.pathT then s.pathT else s.pathT ++ [e.extk] }

/-- The state after `n` iterations of a loop body (the state itself, not
the loop's result; it stops moving once the loop returns). -/
def iterState (st : σ → σ ⊕ α) : Nat → σ → σ
  | 0, s => s
  | n + 1, s =>
    match st s with
    | .inl s' => iterState st n s'
    | .inr _ => s

/-- `RFT_path_finder`'s loop state after `n` iterations, for inspecting
the partial traffic counters of a run that never completes. -/
def pfStateAfter (g : Net) (rt : Nat → RTmap) (source destination : Nat)
    (w : Frac) (n : Nat) : PFState :=
  match g.adj destination with
  | [] => ⟨[], fun _ => ⟨0, 1⟩, fun _ => ⟨0, 1⟩, [], []⟩
  | t :: _ =>
    iterState (pfStep rt destination (g.sntw t.tid)) n
      ⟨[(source, w)], fun _ => ⟨0, 1⟩, fun _ => ⟨0, 1⟩, [], []⟩

/-- The final state of a completed `RFT_path_finder` run (a default dummy
state otherwise). -/
def pfOkState (r : Option (Except String PFState)) : PFState :=
  match r with
  | some (.ok s) => s
  | _ => ⟨[], fun _ => ⟨0, 1⟩, fun _ => ⟨0, 1⟩, [], []⟩

/-! ## Bhandari and Suurballe (`Network.bhandari`, lines 967-1017, and
`Network.suurbale`, lines 1019-1070)

Both run with the allowed sets at their defaults (all trunks, all nodes).
Both begin by saving every trunk's directional costs into its
`flowSD`/`flowDS` fields; `bhandari` restores them before returning,
`suurbale` does not. -/

/-- Pointwise update of a trunk-indexed attribute map. -/
def upd (f : Nat → EInt) (i : Nat) (v : EInt) : Nat → EInt :=
  fun j => if j = i then v else f j

/-- One step of the save loop: `trunk.flowSD = trunk.costSD`,
`trunk.flowDS = trunk.costDS`. -/
def saveBody (g' : Net) (t : Trunk) : Net :=
  { g' with
    flowSD := upd g'.flowSD t.tid (g'.costSD t.tid)
    flowDS := upd g'.flowDS t.tid (g'.costDS t.tid) }

/-- The save loop (`for trunk in a_t: trunk.flowSD = trunk.costSD; ...`). -/
def saveCosts (g : Net) : Net := g.trunks.foldl saveBody g

/-- One step of the restore loop: `trunk.costSD = trunk.flowSD`,
`trunk.costDS = trunk.flowDS`. -/
def restoreBody (g' : Net) (t : Trunk) : Net :=
  { g' with
    costSD := upd g'.costSD t.tid (g'.flowSD t.tid)
    costDS := upd g'.costDS t.tid (g'.flowDS t.tid) }

/-- The restore loop of `bhandari`
(`for trunk in a_t: trunk.costSD = trunk.flowSD; ...`). -/
def restoreCosts (g : Net) : Net := g.trunks.foldl restoreBody g

/-- The graph transformation of `bhandari` (lines 998-1004): walk the first
path from the source, set the traversal-direction cost of each of its trunks
to `inf` and the reverse-direction cost to `-1`. -/
def bhTransform (cur : Nat) : List Trunk → Net → Net
  | [], g => g
  | t :: ts, g =>
    let sdDir := cur = t.src
    let g' :=
      if sdDir then
        { g with
          costSD := upd g.costSD t.tid .inf
          costDS := upd g.costDS t.tid (.val (-1)) }
      else
        { g with
          costDS := upd g.costDS t.tid .inf
          costSD := upd g.costSD t.tid (.val (-1)) }
    bhTransform (if sdDir then t.dst else t.src) ts g'

/-- The symmetric difference of two trunk paths, as sets of trunks
(`set(first_path) ^ set(second_path)`). -/
def symmDiff (a b : List Trunk) : List Trunk :=
  a.filter (fun t => ¬ t ∈ b) ++ b.filter (fun t => ¬ t ∈ a)

/-- `Network.bhandari`: save the costs, run A*, poison the first path's
costs, run Bellman-Ford, restore the costs, return the symmetric
difference.  `none` is exhausted fuel — in particular the Bellman-Ford
traceback looping forever on a negative cycle of the transformed graph;
the `Except` layer carries an exception raised inside Bellman-Ford. -/
def bhandari (g : Net) (source target : Nat) (fuel : Nat) :
    Option (Except String (List Trunk × Net)) :=
  let g1 := saveCosts g
  match A_star g1 source target fuel with
  | none => none
  | some (_, p1) =>
    let g2 := bhTransform source p1 g1
    match bellman_ford g2 source target fuel with
    | none => none
    | some (.error e) => some (.error e)
    | some (.ok (_, p2)) =>
      let g3 := restoreCosts g2
      some (.ok (symmDiff p1 p2, g3))

/-- Subtraction on extended integers; the source only performs it between
the finite distances of shortest-path-tree endpoints, so the `inf` cases
are unreachable there. -/
def EInt.sub : EInt → EInt → EInt
  | .inf, _ => .inf
  | .val _, .inf => .inf
  | .val a, .val b => .val (a - b)

/-- The tree-reweighting loop of `suurbale` (lines 1049-1054):
`costSD += dist[src] - dist[dest]`, `costDS += dist[dest] - dist[src]`
for every shortest-path-tree edge. -/
def suReweight (dist : Nat → EInt) : List Trunk → Net → Net
  | [], g => g
  | t :: ts, g =>
    let dsrc := dist t.src
    let ddst := dist t.dst
    suReweight dist ts
      { g with
        costSD := upd g.costSD t.tid ((g.costSD t.tid) + (dsrc.sub ddst))
        costDS := upd g.costDS t.tid ((g.costDS t.tid) + (ddst.sub dsrc)) }

/-- The first-path exclusion loop of `suurbale` (lines 1057-1061): walk the
first path and set each trunk's traversal-direction cost to `inf` (the
reverse direction is left as reweighted). -/
def suInfPath (cur : Nat) : List Trunk → Net → Net
  | [], g => g
  | t :: ts, g =>
    let sdDir := cur = t.src
    let g' :=
      if sdDir then { g with costSD := upd g.costSD t.tid .inf }
      else { g with costDS := upd g.costDS t.tid .inf }
    suInfPath (if sdDir then t.dst else t.src) ts g'

/-- `Network.suurbale`: save the costs, run Dijkstra for distances, first
path and tree, reweight the tree edges, poison the first path, run A*, and
return the symmetric difference.  No restoration is performed: the returned
network keeps the modified costs. -/
def suurbale (g : Net) (source target : Nat) (fuel : Nat) :
    Option (Except String (List Trunk × Net)) :=
  let g1 := saveCosts g
  match dijkstra g1 source target fuel with
  | none => none
  | some (.error e) => some (.error e)
  | some (.ok res) =>
    let g2 := suReweight res.dist res.tree g1
    let g3 := suInfPath source res.path g2
    match A_star g3 source target fuel with
    | none => none
    | some (_, p2) => some (.ok (symmDiff res.path p2, g3))

/-! ## The max-flow return expressions (`ford_fulkerson`, line 1110, and
`edmonds_karp`, line 1159)

Python builds the directional flow attribute name from string arithmetic.
`ford_fulkerson` writes

    "flow" + (s==adj.source)*"SD" or "DS"

which, by operator precedence, parses as
`("flow" + (s==adj.source)*"SD") or "DS"`; `edmonds_karp` writes the
parenthesized form `"flow" + ((source==adj.source)*"SD" or "DS")`.  The
embedding reproduces both expressions over Python's string semantics
(`bool * str` repeats, `or` keeps a non-empty left operand). -/

/-- Python `bool * str`: the string if true, `""` if false. -/
def pyBoolStr (b : Bool) (s : String) : String := if b then s else ""

/-- Python `str_a or str_b`: the left operand unless it is empty. -/
def pyOrStr (a b : String) : String := if a = "" then b else a

/-- The attribute name `ford_fulkerson` reads on a trunk adjacent to the
source, as a function of `s == adj.source` (line 1110, unparenthesized). -/
def ff_return_attr (b : Bool) : String :=
  pyOrStr (("flow") ++ pyBoolStr b (("SD"))) (("DS"))

/-- The attribute name `edmonds_karp` reads (line 1159, parenthesized). -/
def ek_return_attr (b : Bool) : String :=
  ("flow") ++ pyOrStr (pyBoolStr b (("SD"))) (("DS"))

/-! ## Path predicates used by the claims -/

/-- Total directional cost of walking a trunk list from a node. -/
def walkCost (g : Net) : Nat → List Trunk → EInt
  | _, [] => .val 0
  | cur, t :: ts => g.dirCost t cur + walkCost g (t.other cur) ts

/-- The successive nodes a walk reaches (one per trunk, source excluded). -/
def walkNodes : Nat → List Trunk → List Nat
  | _, [] => []
  | c, t :: ts => t.other c :: walkNodes (t.other c) ts

/-- The final node of a walk. -/
def walkEnd : Nat → List Trunk → Nat
  | c, [] => c
  | c, t :: ts => walkEnd (t.other c) ts

/-- Whether a trunk list is a connected walk from `cur` ending at `target`. -/
def isWalkTo (target : Nat) : Nat → List Trunk → Bool
  | cur, [] => cur == target
  | cur, t :: ts => (cur == t.src || cur == t.dst) && isWalkTo target (t.other cur) ts

/-- Whether a path stays inside the source area (`sa`) until the first
border router it meets, after which it is unconstrained — the IS-IS region
property of the spec. -/
def staysInSourceUntilBorder (g : Net) (sa : Nat) : Nat → List Trunk → Bool
  | _, [] => true
  | cur, t :: ts =>
    if isBorder g cur then true
    else decide (sa ∈ g.nodeAreas cur) &&
      staysInSourceUntilBorder g sa (t.other cur) ts

/-- Whether a walk, starting inside the source area, actually reaches a
border router while staying inside the source area up to it. -/
def reachesBorderIn (g : Net) (sa : Nat) : Nat → List Trunk → Bool
  | cur, [] => isBorder g cur
  | cur, t :: ts =>
    isBorder g cur ||
      (decide (sa ∈ g.nodeAreas cur) && reachesBorderIn g sa (t.other cur) ts)

/-- The OSPF region property: every trunk of the path belongs to the source
area, the backbone, or the target area. -/
def ospfPathOk (g : Net) (sa ta : Nat) (p : List Trunk) : Prop :=
  ∀ t ∈ p, sa ∈ g.trunkAreas t.tid ∨ bbId ∈ g.trunkAreas t.tid ∨
    ta ∈ g.trunkAreas t.tid

/-! ## Result extractors

Several run results carry function-valued state, so theorems read them
through these matchers. -/

/-- The error of a `dijkstra` call, if it raised one. -/
def djError (r : Option (Except String DijkRes)) : Option String :=
  match r with
  | some (.error e) => some e
  | _ => none

/-- The error of an `RFT_path_finder` call, if it raised one. -/
def pfError (r : Option (Except String PFState)) : Option String :=
  match r with
  | some (.error e) => some e
  | _ => none

/-- A directional traffic counter out of a completed `RFT_path_finder`. -/
def pfTrafSD (r : Option (Except String PFState)) (i : Nat) : Option Frac :=
  match r with
  | some (.ok s) => some (s.trafSD i)
  | _ => none

/-- The trunk set (`T.path`) out of a completed `RFT_path_finder`. -/
def pfPath (r : Option (Except String PFState)) : Option (List Trunk) :=
  match r with
  | some (.ok s) => some s.pathT
  | _ => none

/-- A routing-table lookup out of a completed builder run. -/
def rtLookup (r : Option RTmap) (n : Nat) : Option (Option (List RTE)) :=
  match r with
  | some rt => some (rt n)
  | none => none

/-- A directional cost of the network a completed `suurbale`/`bhandari`
call returns. -/
def resCostSD (r : Option (Except String (List Trunk × Net))) (i : Nat) :
    Option EInt :=
  match r with
  | some (.ok (_, gfin)) => some (gfin.costSD i)
  | _ => none

/-- As `resCostSD`, for `costDS`. -/
def resCostDS (r : Option (Except String (List Trunk × Net))) (i : Nat) :
    Option EInt :=
  match r with
  | some (.ok (_, gfin)) => some (gfin.costDS i)
  | _ => none

/-- As `resCostSD`, for `flowSD`. -/
def resFlowSD (r : Option (Except String (List Trunk × Net))) (i : Nat) :
    Option EInt :=
  match r with
  | some (.ok (_, gfin)) => some (gfin.flowSD i)
  | _ => none

/-! ## Concrete fixtures

`mkNet` builds a network from the data the claims vary; the addressing
pipeline's per-trunk `/30` subnetworks, ips and interfaces are modelled by
distinct tokens per trunk (`sntw = tid`, ips `2*tid/2*tid+1`, interfaces
likewise). -/

/-- Fixture builder. -/
def mkNet (nodes : List Nat) (trunks : List Trunk) (cSD cDS : Nat → EInt)
    (tAreas nAreas : Nat → List Nat) (asN asT : List Nat) : Net :=
  { nodes := nodes
    trunks := trunks
    costSD := cSD
    costDS := cDS
    flowSD := fun _ => .val 0
    flowDS := fun _ => .val 0
    sntw := fun t => t
    ipS := fun t => 2 * t
    ipD := fun t => 2 * t + 1
    intS := fun t => 2 * t
    intD := fun t => 2 * t + 1
    trunkAreas := tAreas
    nodeAreas := nAreas
    asNodes := asN
    asTrunks := asT
    routes := []
    routeCost := fun _ => .inf
    trunkHasAS := fun _ => false }

/-- C1 fixture: one RIP AS over routers 1, 2, 3; trunks 1-2 (cost 1 both
ways), 1-3 (cost 3 both ways) and 2-3 with asymmetric costs (10 from node
2, 1 from node 3).  The shortest cost from router 1 to trunk 3's subnetwork
is 4 (via node 3), but the builder first reaches it at cost 11 (via node
2). -/
def gC1 : Net :=
  mkNet [1, 2, 3] [⟨1, 1, 2⟩, ⟨2, 1, 3⟩, ⟨3, 2, 3⟩]
    (fun t => if t = 1 then .val 1 else if t = 2 then .val 3 else .val 10)
    (fun t => if t = 1 then .val 1 else if t = 2 then .val 3 else .val 1)
    (fun _ => []) (fun _ => []) [1, 2, 3] [1, 2, 3]

/-- C3 fixture: one OSPF AS over routers 1..4 with two areas; trunks 1
(1-2) and 2 (2-3) in area 1, trunks 3 (1-4) and 4 (4-3) in area 2.  Trunk
2's subnetwork is reached intra-area at cost 2 (via node 2) and inter-area
at the same cost 2 (via nodes 4, 3; trunk 2 costs 0 from node 3's side). -/
def gC3 : Net :=
  mkNet [1, 2, 3, 4] [⟨1, 1, 2⟩, ⟨2, 2, 3⟩, ⟨3, 1, 4⟩, ⟨4, 4, 3⟩]
    (fun _ => .val 1)
    (fun t => if t = 2 then .val 0 else .val 1)
    (fun t => if t = 1 ∨ t = 2 then [1] else [2])
    (fun _ => []) [1, 2, 3, 4] [1, 2, 3, 4]

/-- C4 fixture: the spec's diamond scenario S2/S4 — routers A=1, B=2, C=3,
D=4, trunks 1 (A-B), 2 (A-C), 3 (B-D), 4 (C-D), all cost 1, one RIP AS. -/
def gC4 : Net :=
  mkNet [1, 2, 3, 4] [⟨1, 1, 2⟩, ⟨2, 1, 3⟩, ⟨3, 2, 4⟩, ⟨4, 3, 4⟩]
    (fun _ => .val 1) (fun _ => .val 1)
    (fun _ => []) (fun _ => []) [1, 2, 3, 4] [1, 2, 3, 4]

/-- The routing tables `calculate_all` builds for the diamond: static
connected routes, then the LB builder (RIP, default `K = 4`). -/
def rtC4 : Nat → RTmap := fun r =>
  match buildRFT gC4 ("RIP") r 4 300 with
  | some m => m
  | none => fun _ => none

/-- C2 fixture: routers 1-2 joined by trunk 1 and routers 3-4 joined by
trunk 2, plus the isolated router 5; no AS, so only connected routes
exist.  A demand from 1 to 3 cannot resolve trunk 2's subnetwork. -/
def gC2 : Net :=
  mkNet [1, 2, 3, 4, 5] [⟨1, 1, 2⟩, ⟨2, 3, 4⟩]
    (fun _ => .val 1) (fun _ => .val 1)
    (fun _ => []) (fun _ => []) [] []

/-- The routing tables for `gC2`: connected routes only (no AS). -/
def rtC2 : Nat → RTmap := fun r => static_RFT_builder gC2 r

/-- C5 fixture: two nodes, no links at all. -/
def gC5 : Net :=
  mkNet [1, 2] [] (fun _ => .inf) (fun _ => .inf)
    (fun _ => []) (fun _ => []) [] []

/-- C6 fixture: nodes 1, 2 joined by trunk 1 with `costSD = 1`,
`costDS = 5` (non-negative, asymmetric). -/
def gC6 : Net :=
  mkNet [1, 2] [⟨1, 1, 2⟩]
    (fun _ => .val 1) (fun _ => .val 5)
    (fun _ => []) (fun _ => []) [1, 2] [1]

/-- C7 counterexample fixture: an IS-IS AS where nodes 1 and 3 are in area
1 and node 2 is a pure backbone (area 0) node; trunks 1 (1-2, cost 1),
2 (2-3, cost 1), 3 (1-3, cost 5). -/
def gC7x : Net :=
  mkNet [1, 2, 3] [⟨1, 1, 2⟩, ⟨2, 2, 3⟩, ⟨3, 1, 3⟩]
    (fun t => if t = 3 then .val 5 else .val 1)
    (fun t => if t = 3 then .val 5 else .val 1)
    (fun _ => [])
    (fun n => if n = 2 then [bbId] else [1])
    [1, 2, 3] [1, 2, 3]

/-- OSPF witness fixture: a single node in area 1. -/
def gO : Net :=
  mkNet [1] [] (fun _ => .inf) (fun _ => .inf)
    (fun _ => []) (fun _ => [1]) [1] []

/-- IS-IS witness fixture: two isolated nodes in distinct non-backbone
areas. -/
def gI : Net :=
  mkNet [1, 2] [] (fun _ => .inf) (fun _ => .inf)
    (fun _ => []) (fun n => if n = 1 then [1] else [2]) [1, 2] []

/-- A one-node network used to witness the frame theorems. -/
def gW : Net :=
  mkNet [1] [] (fun _ => .inf) (fun _ => .inf)
    (fun _ => []) (fun _ => []) [1] []

/-- C9 fixture: s=1, a=2, b=3, t=4 plus two isolated padding nodes (5, 6,
which only lengthen the Bellman-Ford pass count); trunks 1 (1-2, cost 1),
2 and 3 (parallel 2-3, cost 0), 4 (3-4, cost 1), 5 (3-4, cost 5),
6 (1-4, cost 10).  `[trunk 1, trunk 2, trunk 4]` and `[trunk 6]` are two
trunk-disjoint simple paths from 1 to 4. -/
def gC9 : Net :=
  mkNet [1, 2, 3, 4, 5, 6]
    [⟨1, 1, 2⟩, ⟨2, 2, 3⟩, ⟨3, 2, 3⟩, ⟨4, 3, 4⟩, ⟨5, 3, 4⟩, ⟨6, 1, 4⟩]
    (fun t => if t = 1 then .val 1 else if t = 2 ∨ t = 3 then .val 0
      else if t = 4 then .val 1 else if t = 5 then .val 5 else .val 10)
    (fun t => if t = 1 then .val 1 else if t = 2 ∨ t = 3 then .val 0
      else if t = 4 then .val 1 else if t = 5 then .val 5 else .val 10)
    (fun _ => []) (fun _ => []) [1, 2, 3, 4, 5, 6] [1, 2, 3, 4, 5, 6]

/-- C10 fixture: nodes 1, 2, 3; trunks 1 (1-2, cost 1), 2 (2-3, cost 1),
3 (1-3, cost 3). -/
def gC10 : Net :=
  mkNet [1, 2, 3] [⟨1, 1, 2⟩, ⟨2, 2, 3⟩, ⟨3, 1, 3⟩]
    (fun t => if t = 3 then .val 3 else .val 1)
    (fun t => if t = 3 then .val 3 else .val 1)
    (fun _ => []) (fun _ => []) [1, 2, 3] [1, 2, 3]

/-- C4 square fixture: routers 1..4 in one RIP AS; zero-cost trunks
1 (1-2), 2 (1-3) and 3 (2-3), and trunk 4 (3-4) of cost 1.  The built
RFTs for trunk 4's subnetwork give router 1 the ECMP set {via 3, via 2}
and router 2 the ECMP set {via 3, via 1}: router 2's second next hop is
the demand source 1, so a demand from 1 to 4 cycles between routers 1
and 2 forever. -/
def gSq : Net :=
  mkNet [1, 2, 3, 4] [⟨1, 1, 2⟩, ⟨2, 1, 3⟩, ⟨3, 2, 3⟩, ⟨4, 3, 4⟩]
    (fun t => if t = 4 then .val 1 else .val 0)
    (fun t => if t = 4 then .val 1 else .val 0)
    (fun _ => []) (fun _ => []) [1, 2, 3, 4] [1, 2, 3, 4]

/-- The routing tables `calculate_all` builds for the square (RIP,
default `K = 4`). -/
def rtSq : Nat → RTmap := fun r =>
  match buildRFT gSq ("RIP") r 4 300 with
  | some m => m
  | none => fun _ => none

/-- The diamond's built tables restricted to the keys the demand's run
reads: router 1's and router 2's entries for destination subnetwork 3,
with exactly the values `rtC4` computes there.  A finite-domain table, so
the conservation theorem's table hypothesis can be discharged by case
analysis on the router. -/
def rtD : Nat → RTmap := fun r n =>
  if n = 3 then
    if r = 1 then some [⟨("R"), 3, 2, .val 2, 2, ⟨1, 1, 2⟩⟩]
    else if r = 2 then some [⟨("C"), 7, 6, .val 0, 4, ⟨3, 2, 4⟩⟩]
    else none
  else none

/-! # Theorems

## General lemmas: the loop combinator, the heap, walks -/

theorem iterStep_mono {st : σ → σ ⊕ α} {a : α} :
    ∀ {n : Nat} {s : σ}, iterStep st n s = some a → iterStep st (n + 1) s = some a := by
  intro n
  induction n with
  | zero => intro s h; simp [iterStep] at h
  | succ m ih =>
    intro s h
    rw [iterStep] at h ⊢
    cases hs : st s with
    | inr b => rw [hs] at h; exact h
    | inl s' => rw [hs] at h; exact ih h

theorem iterStep_le {st : σ → σ ⊕ α} {a : α} {n m : Nat} {s : σ}
    (hnm : n ≤ m) (h : iterStep st n s = some a) : iterStep st m s = some a := by
  induction hnm with
  | refl => exact h
  | step _ ih => exact iterStep_mono ih

/-- The loop's result does not depend on the fuel: any two runs that return,
return the same value. -/
theorem iterStep_det {st : σ → σ ⊕ α} {a b : α} {n m : Nat} {s : σ}
    (ha : iterStep st n s = some a) (hb : iterStep st m s = some b) : a = b := by
  have h1 := iterStep_le (Nat.le_max_left n m) ha
  have h2 := iterStep_le (Nat.le_max_right n m) hb
  rw [h1] at h2
  exact Option.some_inj.mp h2

/-- Any returning run returns the reference value: with one witness run in
hand, every run either times out or agrees with it. -/
theorem iterStep_none_or {st : σ → σ ⊕ α} {a : α} {n : Nat} {s : σ}
    (ha : iterStep st n s = some a) :
    ∀ m, iterStep st m s = none ∨ iterStep st m s = some a := by
  intro m
  cases hb : iterStep st m s with
  | none => exact Or.inl rfl
  | some b => exact Or.inr (by rw [iterStep_det hb ha])

/-- Invariant rule: if every step from an invariant state either keeps the
invariant or returns a value satisfying `P`, then any returned value
satisfies `P`. -/
theorem iterStep_inv {st : σ → σ ⊕ α} (Inv : σ → Prop) (P : α → Prop)
    (hstep : ∀ s, Inv s →
      (match st s with
       | .inl s' => Inv s'
       | .inr a => P a)) :
    ∀ {n : Nat} {s : σ} {a : α}, Inv s → iterStep st n s = some a → P a := by
  intro n
  induction n with
  | zero => intro s a _ h; simp [iterStep] at h
  | succ m ih =>
    intro s a hInv h
    rw [iterStep] at h
    have hs := hstep s hInv
    cases hst : st s with
    | inr b =>
      rw [hst] at h hs
      cases h
      exact hs
    | inl s' =>
      rw [hst] at h hs
      exact ih hs h

/-- Non-termination rule: if every invariant state steps to another invariant
state (never returns), no amount of fuel makes the loop return. -/
theorem iterStep_noReturn {st : σ → σ ⊕ α} (Inv : σ → Prop)
    (hstep : ∀ s, Inv s → ∃ s', st s = .inl s' ∧ Inv s') :
    ∀ {n : Nat} {s : σ}, Inv s → iterStep st n s = none := by
  intro n
  induction n with
  | zero => intro s _; rfl
  | succ m ih =>
    intro s hInv
    obtain ⟨s', hs, hInv'⟩ := hstep s hInv
    rw [iterStep, hs]
    exact ih hInv'

theorem mem_hins {key : α → EInt} {x a : α} :
    ∀ {l : List α}, a ∈ hins key x l → a = x ∨ a ∈ l := by
  intro l
  induction l with
  | nil => intro h; simp [hins] at h; exact Or.inl h
  | cons y ys ih =>
    intro h
    rw [hins] at h
    by_cases hc : (key y).ble (key x) = true
    · rw [if_pos hc] at h
      rcases List.mem_cons.mp h with h1 | h2
      · exact Or.inr (List.mem_cons.mpr (Or.inl h1))
      · rcases ih h2 with h3 | h4
        · exact Or.inl h3
        · exact Or.inr (List.mem_cons.mpr (Or.inr h4))
    · rw [if_neg hc] at h
      rcases List.mem_cons.mp h with h1 | h2
      · exact Or.inl h1
      · exact Or.inr h2

/-- Push a batch of items onto a heap: each item is filtered/translated to an
optional heap entry by `f` (the source's `continue` guards) and inserted. -/

theorem mem_pushAll {key : α → EInt} {f : β → Option α} {a : α} :
    ∀ {bs : List β} {h : List α}, a ∈ pushAll key f bs h →
      a ∈ h ∨ ∃ b ∈ bs, f b = some a := by
  intro bs
  induction bs with
  | nil => intro h hm; exact Or.inl hm
  | cons b bs ih =>
    intro h hm
    rw [pushAll] at hm
    cases hf : f b with
    | none =>
      rw [hf] at hm
      rcases ih hm with h1 | ⟨c, hc, hfc⟩
      · exact Or.inl h1
      · exact Or.inr ⟨c, List.mem_cons.mpr (Or.inr hc), hfc⟩
    | some x =>
      rw [hf] at hm
      rcases ih hm with h1 | ⟨c, hc, hfc⟩
      · rcases mem_hins h1 with h2 | h3
        · exact Or.inr ⟨b, List.mem_cons.mpr (Or.inl rfl), by rw [hf, h2]⟩
        · exact Or.inl h3
      · exact Or.inr ⟨c, List.mem_cons.mpr (Or.inr hc), hfc⟩

/-! ## Claim theorems (concrete evaluations) -/

/-- C1: the LB RFT builder violates RFT optimality: on `gC1` (a RIP AS),
router 1's table for subnetwork 3 holds the single entry it first reached,
of cost 11 via node 2, although the candidate walk over trunks 2 and 3
reaches that subnetwork at cost 4 — the builder has no branch replacing an
entry set on a strictly lower same-class cost, so the stale higher cost is
kept. -/
theorem c1_lb_builder_keeps_stale_cost :
    rtLookup (buildRFT gC1 ("RIP") 1 4 100) 3 =
      some (some [⟨("R"), 3, 2, .val 11, 2, ⟨1, 1, 2⟩⟩]) ∧
    walkCost gC1 1 [⟨2, 1, 3⟩, ⟨3, 2, 3⟩] = .val 4 ∧
    isWalkTo 2 1 [⟨2, 1, 3⟩, ⟨3, 2, 3⟩] = true ∧
    (⟨3, 2, 3⟩ : Trunk).tid = 3 ∧
    EInt.blt (.val 4) (.val 11) = true := by
  decide

/-- C2: `RFT_path_finder` raises instead of reporting an unroutable demand:
on `gC2`, the demand from router 1 to router 3 stops with the exception of
the failed table lookup (`share /= len(routes)` divides by zero under a
defaultdict table; a plain dict raises `KeyError` at the same spot), and a
demand to the isolated router 5 dies earlier still, reading the unbound
loop variable of the destination-subnetwork resolution. -/
theorem c2_path_finder_raises_on_unreachable :
    pfError (RFT_path_finder gC2 rtC2 1 3 ⟨5, 1⟩ 20) =
      some ("ZeroDivisionError") ∧
    pfError (RFT_path_finder gC2 rtC2 1 5 ⟨5, 1⟩ 20) = some ("NameError") := by
  decide

/-- C3: the OSPF precedence guard is broken: on `gC3`, router 1's entry set
for subnetwork 2 ends up holding an `O` entry and an `O IA` entry together
— the inter-area candidate of equal cost is added to the existing
intra-area set, because the guard compares `rtype == "IA"` where `rtype` is
the string `"O IA"`. -/
theorem c3_oia_added_to_o_entry_set :
    rtLookup (buildRFT gC3 ("OSPF") 1 4 100) 2 =
      some (some
        [⟨("O"), 3, 2, .val 2, 2, ⟨1, 1, 2⟩⟩,
         ⟨("O IA"), 7, 6, .val 2, 4, ⟨3, 1, 4⟩⟩]) := by
  decide

/-! ## Share arithmetic and traffic-sum lemmas (toward C4) -/

theorem Frac.q_add (a b : Frac) (ha : a.den ≠ 0) (hb : b.den ≠ 0) :
    (a.add b).q = a.q + b.q := by
  unfold Frac.q Frac.add
  have ha' : (a.den : ℚ) ≠ 0 := Int.cast_ne_zero.mpr ha
  have hb' : (b.den : ℚ) ≠ 0 := Int.cast_ne_zero.mpr hb
  push_cast
  field_simp

theorem Frac.q_divN (a : Frac) (n : Nat) :
    (a.divN n).q = a.q / (n : ℚ) := by
  unfold Frac.q Frac.divN
  have h : ((Int.ofNat n : Int) : ℚ) = (n : ℚ) := by
    simp
  push_cast
  rw [h, div_div]

theorem sum_map_congr_mem (f f2 : Trunk → ℚ) :
    ∀ l : List Trunk, (∀ t ∈ l, f2 t = f t) →
      (l.map f2).sum = (l.map f).sum := by
  intro l
  induction l with
  | nil => intro _; rfl
  | cons h tl ih =>
    intro hfg
    simp only [List.map_cons, List.sum_cons]
    rw [hfg h (List.mem_cons_self h tl),
      ih (fun t ht => hfg t (List.mem_cons_of_mem h ht))]

/-- Bumping a single summand: if the two summand functions agree except at
the (unique, by trunk-id nodup) element `t0`, where they differ by `d`,
the sums differ by `d`. -/
theorem sum_map_single_bump (f f2 : Trunk → ℚ) (d : ℚ) (t0 : Trunk) :
    ∀ l : List Trunk, (l.map Trunk.tid).Nodup → t0 ∈ l →
      (∀ t ∈ l, t.tid ≠ t0.tid → f2 t = f t) → f2 t0 = f t0 + d →
      (l.map f2).sum = (l.map f).sum + d := by
  intro l
  induction l with
  | nil => intro _ h; cases h
  | cons h tl ih =>
    intro hnd hmem hne hbump
    simp only [List.map_cons, List.nodup_cons] at hnd
    simp only [List.map_cons, List.sum_cons]
    rcases List.mem_cons.mp hmem with he | hm
    · have htl : ∀ t ∈ tl, f2 t = f t := by
        intro t ht
        refine hne t (List.mem_cons_of_mem h ht) ?_
        intro hc
        apply hnd.1
        rw [← he, ← hc]
        exact List.mem_map_of_mem Trunk.tid ht
      rw [← he, hbump, sum_map_congr_mem f f2 tl htl]
      ring
    · have hh : f2 h = f h := by
        refine hne h (List.mem_cons_self h tl) ?_
        intro hc
        apply hnd.1
        rw [hc]
        exact List.mem_map_of_mem Trunk.tid hm
      rw [hh, ih hnd.2 hm (fun t ht => hne t (List.mem_cons_of_mem h ht)) hbump]
      ring

/-- Distinct trunk ids make the id a key into the trunk pool. -/
theorem nodup_map_tid_inj :
    ∀ l : List Trunk, (l.map Trunk.tid).Nodup →
      ∀ t1, t1 ∈ l → ∀ t2, t2 ∈ l → t1.tid = t2.tid → t1 = t2 := by
  intro l
  induction l with
  | nil => intro _ t1 h1; cases h1
  | cons h tl ih =>
    intro hnd t1 h1 t2 h2 he
    simp only [List.map_cons, List.nodup_cons] at hnd
    rcases List.mem_cons.mp h1 with e1 | m1
    · rcases List.mem_cons.mp h2 with e2 | m2
      · rw [e1, e2]
      · exfalso
        apply hnd.1
        rw [← e1, he]
        exact List.mem_map_of_mem Trunk.tid m2
    · rcases List.mem_cons.mp h2 with e2 | m2
      · exfalso
        apply hnd.1
        rw [← e2, ← he]
        exact List.mem_map_of_mem Trunk.tid m1
      · exact ih hnd.2 t1 m1 t2 m2 he

/-- Peeling one entry off a spread. -/
theorem pfSpread_cons (curr : Nat) (sh : Frac) (e : RTE) (es : List RTE)
    (st : PFState) :
    pfSpread curr sh (e :: es) st =
      pfSpread curr sh es (pfPlace curr sh e st) := rfl

/-- The stack after a spread: the pushed next hops (in reverse entry
order) on top of the old stack. -/
theorem pfSpread_stack (curr : Nat) (sh : Frac) :
    ∀ (l : List RTE) (st : PFState),
      (pfSpread curr sh l st).stack =
        (l.map (fun e => (e.nh, sh))).reverse ++ st.stack := by
  intro l
  induction l with
  | nil => intro st; simp [pfSpread]
  | cons e es ih =>
    intro st
    rw [pfSpread_cons, ih]
    simp [pfPlace]

/-- Placing one entry changes the leaving-traffic sum of `src` by the
share iff the placing router is `src` (given the exit trunk is a pool
trunk incident to the placing router and trunk ids are distinct). -/
theorem outQ_place (g : Net) (src curr : Nat) (e : RTE) (sh : Frac)
    (st : PFState)
    (htid : (g.trunks.map Trunk.tid).Nodup)
    (hmem : e.extk ∈ g.trunks)
    (hinc : e.extk.src = curr ∨ e.extk.dst = curr)
    (hdens : ∀ i, 0 < (st.trafSD i).den ∧ 0 < (st.trafDS i).den)
    (hsh : 0 < sh.den) :
    outQ g src (pfPlace curr sh e st) =
      outQ g src st + (if curr = src then sh.q else 0) := by
  by_cases hcs : curr = src
  · subst hcs
    rw [if_pos rfl]
    unfold outQ
    refine sum_map_single_bump _ _ sh.q e.extk g.trunks htid hmem ?_ ?_
    · intro t _ hne
      dsimp only
      by_cases hio : curr = t.src ∨ curr = t.dst
      · rw [if_pos hio, if_pos hio]
        have h1 : (pfPlace curr sh e st).trafSD t.tid = st.trafSD t.tid := by
          dsimp only [pfPlace]
          exact if_neg (fun hc => hne hc.1)
        have h2 : (pfPlace curr sh e st).trafDS t.tid = st.trafDS t.tid := by
          dsimp only [pfPlace]
          exact if_neg (fun hc => hne hc.1)
        unfold awayTraf
        by_cases hts : curr = t.src
        · rw [if_pos hts, if_pos hts, h1]
        · rw [if_neg hts, if_neg hts, h2]
      · rw [if_neg hio, if_neg hio]
    · dsimp only
      have hio : curr = e.extk.src ∨ curr = e.extk.dst :=
        hinc.imp Eq.symm Eq.symm
      rw [if_pos hio, if_pos hio]
      unfold awayTraf
      by_cases hts : curr = e.extk.src
      · rw [if_pos hts, if_pos hts]
        have h1 : (pfPlace curr sh e st).trafSD e.extk.tid =
            (st.trafSD e.extk.tid).add sh := by
          dsimp only [pfPlace]
          exact if_pos ⟨rfl, hts⟩
        rw [h1, Frac.q_add _ _ (hdens e.extk.tid).1.ne' hsh.ne']
      · rw [if_neg hts, if_neg hts]
        have h2 : (pfPlace curr sh e st).trafDS e.extk.tid =
            (st.trafDS e.extk.tid).add sh := by
          dsimp only [pfPlace]
          exact if_pos ⟨rfl, hts⟩
        rw [h2, Frac.q_add _ _ (hdens e.extk.tid).2.ne' hsh.ne']
  · rw [if_neg hcs, add_zero]
    unfold outQ
    refine sum_map_congr_mem _ _ g.trunks ?_
    intro t ht
    dsimp only
    by_cases hio : src = t.src ∨ src = t.dst
    · rw [if_pos hio, if_pos hio]
      unfold awayTraf
      by_cases hts : src = t.src
      · rw [if_pos hts, if_pos hts]
        have h1 : (pfPlace curr sh e st).trafSD t.tid = st.trafSD t.tid := by
          dsimp only [pfPlace]
          refine if_neg ?_
          rintro ⟨hc1, hc2⟩
          have hte : t = e.extk := nodup_map_tid_inj g.trunks htid t ht e.extk hmem hc1
          apply hcs
          rw [hc2, ← hte, ← hts]
        rw [h1]
      · rw [if_neg hts, if_neg hts]
        have htd : src = t.dst := hio.resolve_left hts
        have h2 : (pfPlace curr sh e st).trafDS t.tid = st.trafDS t.tid := by
          dsimp only [pfPlace]
          refine if_neg ?_
          rintro ⟨hc1, hc2⟩
          have hte : t = e.extk := nodup_map_tid_inj g.trunks htid t ht e.extk hmem hc1
          rcases hinc with hi | hi
          · exact hc2 hi.symm
          · apply hcs
            rw [← hte] at hi
            rw [← hi, ← htd]
        rw [h2]
    · rw [if_neg hio, if_neg hio]

/-- Effect of a full spread on the observables: the leaving traffic of
`src` grows by (entry count) x (per-entry share) iff the spreading router
is `src`; the source's stack mass is unchanged (no pushed next hop is the
source); denominators stay positive. -/
theorem pfSpread_effect (g : Net) (src : Nat)
    (htid : (g.trunks.map Trunk.tid).Nodup) :
    ∀ (l : List RTE) (curr : Nat) (sh : Frac) (st : PFState),
      (∀ e ∈ l, e.extk ∈ g.trunks ∧ (e.extk.src = curr ∨ e.extk.dst = curr) ∧
        e.nh ≠ src) →
      densPos st → 0 < sh.den →
      outQ g src (pfSpread curr sh l st) =
        outQ g src st + (if curr = src then (l.length : ℚ) * sh.q else 0) ∧
      stackQ src (pfSpread curr sh l st) = stackQ src st ∧
      densPos (pfSpread curr sh l st) := by
  intro l
  induction l with
  | nil =>
    intro curr sh st _ hdens hsh
    refine ⟨?_, rfl, hdens⟩
    simp [pfSpread]
  | cons e es ih =>
    intro curr sh st hent hdens hsh
    obtain ⟨hmem, hinc, hnh⟩ := hent e (List.mem_cons_self e es)
    have hout1 : outQ g src (pfPlace curr sh e st) =
        outQ g src st + (if curr = src then sh.q else 0) :=
      outQ_place g src curr e sh st htid hmem hinc hdens.1 hsh
    have hstk1 : stackQ src (pfPlace curr sh e st) = stackQ src st := by
      unfold stackQ
      dsimp only [pfPlace]
      rw [List.map_cons, List.sum_cons]
      dsimp only
      rw [if_neg hnh]
      ring
    have hd1 : densPos (pfPlace curr sh e st) := by
      refine ⟨?_, ?_⟩
      · intro i
        constructor
        · dsimp only [pfPlace]
          by_cases hc : i = e.extk.tid ∧ curr = e.extk.src
          · rw [if_pos hc]
            exact Int.mul_pos (hdens.1 i).1 hsh
          · rw [if_neg hc]
            exact (hdens.1 i).1
        · dsimp only [pfPlace]
          by_cases hc : i = e.extk.tid ∧ ¬curr = e.extk.src
          · rw [if_pos hc]
            exact Int.mul_pos (hdens.1 i).2 hsh
          · rw [if_neg hc]
            exact (hdens.1 i).2
      · intro p hp
        dsimp only [pfPlace] at hp
        rcases List.mem_cons.mp hp with he | hm
        · rw [he]
          exact hsh
        · exact hdens.2 p hm
    obtain ⟨hOut, hStk, hD⟩ :=
      ih curr sh (pfPlace curr sh e st)
        (fun e2 he2 => hent e2 (List.mem_cons_of_mem e he2)) hd1 hsh
    rw [pfSpread_cons]
    refine ⟨?_, ?_, hD⟩
    · rw [hOut, hout1]
      by_cases hcs : curr = src
      · rw [if_pos hcs, if_pos hcs, if_pos hcs]
        simp only [List.length_cons]
        push_cast
        ring
      · rw [if_neg hcs, if_neg hcs, if_neg hcs]
        ring
    · rw [hStk, hstk1]

/-- C4 counterexample: both halves of the claim fail on the code.
Diamond: the demand of 10 is not split 5/5 over the two exit trunks
(router 1's table has one single entry for the resolved destination
subnetwork, so trunk 1 carries 10 and trunk 2 carries 0).  Square: the
destination is reachable through the built tables (router 1 resolves the
destination subnetwork via routers 3 and 2, router 3 delivers to 4), yet
the run never completes for any fuel - router 2's ECMP set contains the
source as next hop - and after three pops the total already placed on the
away sides of the source's trunks is 5, which differs from the throughput
4 by far more than 1e-9. -/
theorem c4_split_and_conservation_both_fail :
    (pfTrafSD (RFT_path_finder gC4 rtC4 1 4 ⟨10, 1⟩ 50) 1 = some ⟨10, 1⟩ ∧
     pfTrafSD (RFT_path_finder gC4 rtC4 1 4 ⟨10, 1⟩ 50) 2 = some ⟨0, 1⟩ ∧
     ¬ Frac.eqv ⟨10, 1⟩ ⟨5, 1⟩ ∧ ¬ Frac.eqv ⟨0, 1⟩ ⟨5, 1⟩) ∧
    (rtSq 1 4 = some [⟨("R"), 5, 4, .val 1, 3, ⟨2, 1, 3⟩⟩,
        ⟨("R"), 3, 2, .val 1, 2, ⟨1, 1, 2⟩⟩] ∧
     rtSq 2 4 = some [⟨("R"), 7, 6, .val 1, 3, ⟨3, 2, 3⟩⟩,
        ⟨("R"), 2, 3, .val 1, 1, ⟨1, 1, 2⟩⟩] ∧
     rtSq 3 4 = some [⟨("C"), 9, 8, .val 0, 4, ⟨4, 3, 4⟩⟩]) ∧
    (∀ fuel, RFT_path_finder gSq rtSq 1 4 ⟨4, 1⟩ fuel = none) ∧
    ((pfStateAfter gSq rtSq 1 4 ⟨4, 1⟩ 3).trafSD 1 = ⟨40, 16⟩ ∧
     (pfStateAfter gSq rtSq 1 4 ⟨4, 1⟩ 3).trafSD 2 = ⟨40, 16⟩ ∧
     Frac.eqv (Frac.add ⟨40, 16⟩ ⟨40, 16⟩) ⟨5, 1⟩ ∧
     ¬ Frac.eqv (Frac.add ⟨40, 16⟩ ⟨40, 16⟩) ⟨4, 1⟩) := by
  refine ⟨by decide, by decide, ?_, by decide⟩
  have hl1 : rtSq 1 (gSq.sntw 4) = some [⟨("R"), 5, 4, .val 1, 3, ⟨2, 1, 3⟩⟩,
      ⟨("R"), 3, 2, .val 1, 2, ⟨1, 1, 2⟩⟩] := by decide
  have hl2 : rtSq 2 (gSq.sntw 4) = some [⟨("R"), 7, 6, .val 1, 3, ⟨3, 2, 3⟩⟩,
      ⟨("R"), 2, 3, .val 1, 1, ⟨1, 1, 2⟩⟩] := by decide
  have hl3 : rtSq 3 (gSq.sntw 4) =
      some [⟨("C"), 9, 8, .val 0, 4, ⟨4, 3, 4⟩⟩] := by decide
  intro fuel
  show iterStep (pfStep rtSq 4 (gSq.sntw 4)) fuel
      ⟨[(1, ⟨4, 1⟩)], fun _ => ⟨0, 1⟩, fun _ => ⟨0, 1⟩, [], []⟩ = none
  refine iterStep_noReturn
    (fun s : PFState => (∃ p ∈ s.stack, p.1 = 1 ∨ p.1 = 2) ∧
      (∀ p ∈ s.stack, p.1 = 1 ∨ p.1 = 2 ∨ p.1 = 3 ∨ p.1 = 4)) ?_ ?_
  · intro s hInv
    obtain ⟨⟨pw, hpw, hpw12⟩, hall⟩ := hInv
    rcases hstack : s.stack with _ | ⟨⟨r, share⟩, rest⟩
    · rw [hstack] at hpw
      cases hpw
    · have hrest : ∀ p ∈ rest, p.1 = 1 ∨ p.1 = 2 ∨ p.1 = 3 ∨ p.1 = 4 :=
        fun p hp => hall p (by rw [hstack]; exact List.mem_cons_of_mem _ hp)
      have hr : r = 1 ∨ r = 2 ∨ r = 3 ∨ r = 4 :=
        hall (r, share) (by rw [hstack]; exact List.mem_cons_self _ _)
      rcases hr with h | h | h | h <;> subst h
      · -- pop router 1: pushes routers 2 and 3
        have hps : pfStep rtSq 4 (gSq.sntw 4) s =
            .inl (pfSpread 1 (share.divN 2)
              [⟨("R"), 5, 4, .val 1, 3, ⟨2, 1, 3⟩⟩,
               ⟨("R"), 3, 2, .val 1, 2, ⟨1, 1, 2⟩⟩] { s with stack := rest }) := by
          unfold pfStep
          rw [hstack]
          dsimp only
          rw [if_neg (by decide : ¬ (1 : Nat) = 4), hl1]
          rfl
        have hs2 : (pfSpread 1 (share.divN 2)
            [⟨("R"), 5, 4, .val 1, 3, ⟨2, 1, 3⟩⟩,
             ⟨("R"), 3, 2, .val 1, 2, ⟨1, 1, 2⟩⟩]
            { s with stack := rest }).stack =
            (2, share.divN 2) :: (3, share.divN 2) :: rest := by
          rw [pfSpread_stack]
          rfl
        refine ⟨_, hps, ⟨(2, share.divN 2), ?_, by simp⟩, ?_⟩
        · rw [hs2]
          exact List.mem_cons_self _ _
        · intro p hp
          rw [hs2] at hp
          rcases List.mem_cons.mp hp with h | hp2
          · simp [h]
          rcases List.mem_cons.mp hp2 with h | h
          · simp [h]
          · exact hrest p h
      · -- pop router 2: pushes routers 3 and 1 (the source)
        have hps : pfStep rtSq 4 (gSq.sntw 4) s =
            .inl (pfSpread 2 (share.divN 2)
              [⟨("R"), 7, 6, .val 1, 3, ⟨3, 2, 3⟩⟩,
               ⟨("R"), 2, 3, .val 1, 1, ⟨1, 1, 2⟩⟩] { s with stack := rest }) := by
          unfold pfStep
          rw [hstack]
          dsimp only
          rw [if_neg (by decide : ¬ (2 : Nat) = 4), hl2]
          rfl
        have hs2 : (pfSpread 2 (share.divN 2)
            [⟨("R"), 7, 6, .val 1, 3, ⟨3, 2, 3⟩⟩,
             ⟨("R"), 2, 3, .val 1, 1, ⟨1, 1, 2⟩⟩]
            { s with stack := rest }).stack =
            (1, share.divN 2) :: (3, share.divN 2) :: rest := by
          rw [pfSpread_stack]
          rfl
        refine ⟨_, hps, ⟨(1, share.divN 2), ?_, by simp⟩, ?_⟩
        · rw [hs2]
          exact List.mem_cons_self _ _
        · intro p hp
          rw [hs2] at hp
          rcases List.mem_cons.mp hp with h | hp2
          · simp [h]
          rcases List.mem_cons.mp hp2 with h | h
          · simp [h]
          · exact hrest p h
      · -- pop router 3: pushes the destination; the witness sat below
        have hpwr : pw ∈ rest := by
          rw [hstack] at hpw
          rcases List.mem_cons.mp hpw with hc | hc
          · rw [hc] at hpw12
            simp at hpw12
          · exact hc
        have hps : pfStep rtSq 4 (gSq.sntw 4) s =
            .inl (pfSpread 3 (share.divN 1)
              [⟨("C"), 9, 8, .val 0, 4, ⟨4, 3, 4⟩⟩] { s with stack := rest }) := by
          unfold pfStep
          rw [hstack]
          dsimp only
          rw [if_neg (by decide : ¬ (3 : Nat) = 4), hl3]
          rfl
        have hs2 : (pfSpread 3 (share.divN 1)
            [⟨("C"), 9, 8, .val 0, 4, ⟨4, 3, 4⟩⟩]
            { s with stack := rest }).stack = (4, share.divN 1) :: rest := by
          rw [pfSpread_stack]
          rfl
        refine ⟨_, hps, ⟨pw, ?_, hpw12⟩, ?_⟩
        · rw [hs2]
          exact List.mem_cons_of_mem _ hpwr
        · intro p hp
          rw [hs2] at hp
          rcases List.mem_cons.mp hp with h | h
          · simp [h]
          · exact hrest p h
      · -- pop the destination: drop it; the witness sat below
        have hpwr : pw ∈ rest := by
          rw [hstack] at hpw
          rcases List.mem_cons.mp hpw with hc | hc
          · rw [hc] at hpw12
            simp at hpw12
          · exact hc
        have hps : pfStep rtSq 4 (gSq.sntw 4) s =
            .inl { s with stack := rest } := by
          unfold pfStep
          rw [hstack]
          dsimp only
          rw [if_pos rfl]
        exact ⟨_, hps, ⟨pw, hpwr, hpw12⟩, hrest⟩
  · refine ⟨⟨(1, ⟨4, 1⟩), List.mem_cons_self _ _, by simp⟩, ?_⟩
    intro p hp
    rcases List.mem_cons.mp hp with h | h
    · simp [h]
    · cases h

/-- C4: conservation of a routed demand.  Universal sentence: for every
network with distinct trunk ids and every routing table whose entries for
the destination subnetwork keep their exit trunk in the trunk pool and
incident to the owning router and never name the demand's source as next
hop, every completing `RFT_path_finder` run places a total of exactly `w`
on the away-from-source sides of the source's trunks (conservation within
1e-9 follows, the equality being exact).  Concrete sentence: the diamond
demand of 10 completes with trunk 1 carrying 10 and trunk 2 carrying 0
(no 5/5 split), router 1's table holding a single entry for the resolved
subnetwork, the path being trunks 1 and 3, and the total leaving the
source being exactly 10 = 10 + 0. -/
theorem c4_conditional_conservation :
    (∀ (g : Net) (rt : Nat → RTmap) (src dst dsn : Nat) (w : Frac)
        (t0 : Trunk) (ts : List Trunk) (fuel : Nat) (st : PFState),
        src ≠ dst → 0 < w.den →
        (g.trunks.map Trunk.tid).Nodup →
        g.adj dst = t0 :: ts →
        g.sntw t0.tid = dsn →
        (∀ (r : Nat) (l : List RTE), rt r dsn = some l →
          ∀ e ∈ l, e.extk ∈ g.trunks ∧ (e.extk.src = r ∨ e.extk.dst = r) ∧
            e.nh ≠ src) →
        RFT_path_finder g rt src dst w fuel = some (.ok st) →
        outQ g src st = w.q) ∧
    (rtLookup (buildRFT gC4 ("RIP") 1 4 300) 3 =
      some (some [⟨("R"), 3, 2, .val 2, 2, ⟨1, 1, 2⟩⟩]) ∧
     pfTrafSD (RFT_path_finder gC4 rtC4 1 4 ⟨10, 1⟩ 50) 1 = some ⟨10, 1⟩ ∧
     pfTrafSD (RFT_path_finder gC4 rtC4 1 4 ⟨10, 1⟩ 50) 2 = some ⟨0, 1⟩ ∧
     pfTrafSD (RFT_path_finder gC4 rtC4 1 4 ⟨10, 1⟩ 50) 3 = some ⟨10, 1⟩ ∧
     pfPath (RFT_path_finder gC4 rtC4 1 4 ⟨10, 1⟩ 50) =
       some [⟨1, 1, 2⟩, ⟨3, 2, 4⟩] ∧
     Frac.eqv (Frac.add ⟨10, 1⟩ ⟨0, 1⟩) ⟨10, 1⟩) := by
  constructor
  · intro g rt src dst dsn w t0 ts fuel st hsd hw htid hadj hsn hrt hrun
    unfold RFT_path_finder at hrun
    rw [hadj] at hrun
    dsimp only at hrun
    rw [hsn] at hrun
    have hInv0 : outQ g src
          ⟨[(src, w)], fun _ => ⟨0, 1⟩, fun _ => ⟨0, 1⟩, [], []⟩ +
        stackQ src ⟨[(src, w)], fun _ => ⟨0, 1⟩, fun _ => ⟨0, 1⟩, [], []⟩ =
          w.q ∧
        densPos ⟨[(src, w)], fun _ => ⟨0, 1⟩, fun _ => ⟨0, 1⟩, [], []⟩ := by
      refine ⟨?_, ?_, ?_⟩
      · have hz : outQ g src
            ⟨[(src, w)], fun _ => ⟨0, 1⟩, fun _ => ⟨0, 1⟩, [], []⟩ = 0 := by
          unfold outQ
          refine List.sum_eq_zero ?_
          intro x hx
          obtain ⟨t, _, rfl⟩ := List.mem_map.mp hx
          unfold awayTraf
          dsimp only
          have hq0 : Frac.q ⟨0, 1⟩ = 0 := by
            unfold Frac.q
            norm_num
          by_cases hio : src = t.src ∨ src = t.dst
          · rw [if_pos hio]
            by_cases hts : src = t.src
            · rw [if_pos hts, hq0]
            · rw [if_neg hts, hq0]
          · rw [if_neg hio]
        have hw1 : stackQ src
            ⟨[(src, w)], fun _ => ⟨0, 1⟩, fun _ => ⟨0, 1⟩, [], []⟩ = w.q := by
          unfold stackQ
          rw [List.map_cons, List.map_nil, List.sum_cons, List.sum_nil]
          dsimp only
          rw [if_pos rfl]
          ring
        rw [hz, hw1, zero_add]
      · intro i
        exact ⟨Int.one_pos, Int.one_pos⟩
      · intro p hp
        rcases List.mem_cons.mp hp with h | h
        · rw [h]
          exact hw
        · cases h
    refine iterStep_inv
      (fun s : PFState => outQ g src s + stackQ src s = w.q ∧ densPos s)
      (fun a : Except String PFState =>
        ∀ s1, a = Except.ok s1 → outQ g src s1 = w.q)
      ?_ hInv0 hrun st rfl
    intro s hInv
    obtain ⟨hcons, hdens⟩ := hInv
    rcases hstack : s.stack with _ | ⟨⟨r, share⟩, rest⟩
    · have hps : pfStep rt dst dsn s = .inr (.ok s) := by
        unfold pfStep
        rw [hstack]
      rw [hps]
      intro s1 heq
      injection heq with heq
      subst heq
      have hsq : stackQ src s = 0 := by
        unfold stackQ
        rw [hstack]
        rfl
      rw [hsq, add_zero] at hcons
      exact hcons
    · have hdmid : densPos { s with stack := rest } :=
        ⟨hdens.1, fun p hp =>
          hdens.2 p (by rw [hstack]; exact List.mem_cons_of_mem _ hp)⟩
      by_cases hrd : r = dst
      · have hps : pfStep rt dst dsn s = .inl { s with stack := rest } := by
          unfold pfStep
          rw [hstack]
          dsimp only
          rw [if_pos hrd]
        rw [hps]
        have hrs : ¬ r = src := fun h => hsd (by rw [← h, hrd])
        refine ⟨?_, hdmid⟩
        have h2 : stackQ src s = stackQ src { s with stack := rest } := by
          unfold stackQ
          rw [hstack]
          rw [List.map_cons, List.sum_cons]
          dsimp only
          rw [if_neg hrs]
          ring
        have h1 : outQ g src { s with stack := rest } = outQ g src s := rfl
        rw [h1, ← h2]
        exact hcons
      · rcases hlook : rt r dsn with _ | ⟨_ | ⟨e, es⟩⟩
        · have hps : pfStep rt dst dsn s =
              .inr (.error ("ZeroDivisionError")) := by
            unfold pfStep
            rw [hstack]
            dsimp only
            rw [if_neg hrd, hlook]
          rw [hps]
          intro s1 heq
          exact Except.noConfusion heq
        · have hps : pfStep rt dst dsn s =
              .inr (.error ("ZeroDivisionError")) := by
            unfold pfStep
            rw [hstack]
            dsimp only
            rw [if_neg hrd, hlook]
          rw [hps]
          intro s1 heq
          exact Except.noConfusion heq
        · have hps : pfStep rt dst dsn s =
              .inl (pfSpread r (share.divN (e :: es).length) (e :: es)
                { s with stack := rest }) := by
            unfold pfStep
            rw [hstack]
            dsimp only
            rw [if_neg hrd, hlook]
          rw [hps]
          have hent := hrt r (e :: es) hlook
          have hshden : 0 < share.den :=
            hdens.2 (r, share) (by rw [hstack]; exact List.mem_cons_self _ _)
          have hdiv : 0 < (share.divN (e :: es).length).den := by
            unfold Frac.divN
            exact Int.mul_pos hshden (Int.ofNat_pos.mpr (by simp))
          obtain ⟨hOut, hStk, hD⟩ :=
            pfSpread_effect g src htid (e :: es) r
              (share.divN (e :: es).length) { s with stack := rest }
              hent hdmid hdiv
          refine ⟨?_, hD⟩
          rw [hOut, hStk]
          have hOmid : outQ g src { s with stack := rest } = outQ g src s := rfl
          have hSmid : stackQ src s =
              (if r = src then share.q else 0) +
                stackQ src { s with stack := rest } := by
            unfold stackQ
            rw [hstack]
            rw [List.map_cons, List.sum_cons]
          rw [hOmid]
          by_cases hcs : r = src
          · have hlen : ((e :: es).length : ℚ) ≠ 0 :=
              Nat.cast_ne_zero.mpr
                (fun h => List.cons_ne_nil e es (List.length_eq_zero.mp h))
            have hql : ((e :: es).length : ℚ) *
                (share.divN (e :: es).length).q = share.q := by
              rw [Frac.q_divN, mul_comm]
              exact div_mul_cancel₀ share.q hlen
            rw [if_pos hcs, hql]
            rw [hSmid, if_pos hcs] at hcons
            linarith
          · rw [if_neg hcs]
            rw [hSmid, if_neg hcs] at hcons
            linarith
  · decide

/-- C4 witness: the conservation theorem applied to the diamond demand
(tables `rtD`, the built tables' values on the keys the run reads): the
completed run's total leaving router 1 is exactly the throughput 10. -/
theorem c4_conditional_conservation_witness :
    outQ gC4 1 (pfOkState (RFT_path_finder gC4 rtD 1 4 ⟨10, 1⟩ 20)) =
      Frac.q ⟨10, 1⟩ :=
  c4_conditional_conservation.1 gC4 rtD 1 4 3 ⟨10, 1⟩ ⟨3, 2, 4⟩
    [⟨4, 3, 4⟩] 20 (pfOkState (RFT_path_finder gC4 rtD 1 4 ⟨10, 1⟩ 20))
    (by decide) (by decide) (by decide) (by decide) (by decide)
    (by
      intro r l hl e he
      by_cases h1 : r = 1
      · subst h1
        rw [show rtD 1 3 = some [⟨("R"), 3, 2, .val 2, 2, ⟨1, 1, 2⟩⟩]
          from rfl] at hl
        injection hl with hl
        subst hl
        rcases List.mem_cons.mp he with h | h
        · subst h
          exact ⟨by decide, by decide, by decide⟩
        · cases h
      · by_cases h2 : r = 2
        · subst h2
          rw [show rtD 2 3 = some [⟨("C"), 7, 6, .val 0, 4, ⟨3, 2, 4⟩⟩]
            from rfl] at hl
          injection hl with hl
          subst hl
          rcases List.mem_cons.mp he with h | h
          · subst h
            exact ⟨by decide, by decide, by decide⟩
          · cases h
        · rw [show rtD r 3 =
              (if r = 1 then some [⟨("R"), 3, 2, .val 2, 2, ⟨1, 1, 2⟩⟩]
               else if r = 2 then some [⟨("C"), 7, 6, .val 0, 4, ⟨3, 2, 4⟩⟩]
               else none) from rfl, if_neg h1, if_neg h2] at hl
          exact Option.noConfusion hl)
    (by rfl)

/-- C5: with no path between nodes 1 and 2 (no trunks at all), `dijkstra`
does not return an empty path list: its traceback dereferences the `None`
predecessor and raises `KeyError`; and `traffic_routing` falls off its loop
and returns Python `None` rather than an empty path list. -/
theorem c5_dijkstra_raises_traffic_returns_none :
    djError (dijkstra gC5 1 2 20) = some ("KeyError") ∧
    traffic_routing gC5 1 2 20 = some none := by
  decide

/-- C6: `floyd_warshall` reads `costSD` for both directions: on `gC6`
(trunk 1 with `costSD = 1`, `costDS = 5`, both non-negative), the matrix
entry from node 2 to node 1 is 1 while Dijkstra's directional distance from
node 2 to node 1 is 5; the forward direction agrees. -/
theorem c6_floyd_warshall_disagrees_with_dijkstra :
    (floyd_warshall gC6).map (fun W => W 2 1) = some (.val 1) ∧
    (dijkstraRun gC6 2 30).map (fun s => s.dist 1) = some (.val 5) ∧
    (floyd_warshall gC6).map (fun W => W 1 2) = some (.val 1) ∧
    (dijkstraRun gC6 1 30).map (fun s => s.dist 2) = some (.val 1) ∧
    EInt.val 1 ≠ EInt.val 5 := by
  decide

/-- C7 counterexample: on the IS-IS fixture `gC7x`, where source 1 and
target 3 share area 1 and node 2 is a pure backbone node (not a border
router), the returned path crosses node 2 — it leaves the source area
before any border router. -/
theorem c7_isis_path_leaves_source_area :
    ISIS_routing gC7x 1 3 50 = some ([], [⟨1, 1, 2⟩, ⟨2, 2, 3⟩]) ∧
    staysInSourceUntilBorder gC7x 1 1 [⟨1, 1, 2⟩, ⟨2, 2, 3⟩] = false ∧
    isisArea gC7x 1 = some 1 ∧ isisArea gC7x 3 = some 1 ∧
    isBorder gC7x 2 = false := by
  decide

/-- C8: the flow attribute `ford_fulkerson`'s return expression reads for a
trunk whose destination is the source node is the nonexistent `"flow"`
(missing parentheses around the conditional suffix), while `edmonds_karp`'s
parenthesized expression reads `"flowDS"`; so on any topology where some
trunk enters the source node, `ford_fulkerson`'s return raises
`AttributeError` instead of producing the flow value the other algorithms
produce. -/
theorem c8_ford_fulkerson_reads_wrong_attribute :
    ff_return_attr false = ("flow") ∧
    ff_return_attr true = ("flowSD") ∧
    ek_return_attr false = ("flowDS") ∧
    ek_return_attr true = ("flowSD") ∧
    ff_return_attr false ≠ ek_return_attr false := by
  decide

/-! ## Walk and region lemmas (for the protocol-router region theorems) -/

theorem walkEnd_append (t : Trunk) :
    ∀ (p : List Trunk) (c : Nat), walkEnd c (p ++ [t]) = t.other (walkEnd c p) := by
  intro p
  induction p with
  | nil => intro c; rfl
  | cons u us ih => intro c; simp only [List.cons_append, walkEnd]; exact ih _

theorem walkNodes_append (t : Trunk) :
    ∀ (p : List Trunk) (c : Nat),
      walkNodes c (p ++ [t]) = walkNodes c p ++ [t.other (walkEnd c p)] := by
  intro p
  induction p with
  | nil => intro c; rfl
  | cons u us ih =>
    intro c
    simp only [List.cons_append, walkNodes, walkEnd, List.append_eq]
    rw [ih]

theorem reachesBorderIn_of_border (g : Net) (sa c : Nat)
    (h : isBorder g c = true) :
    ∀ q, reachesBorderIn g sa c q = true := by
  intro q
  cases q with
  | nil => exact h
  | cons t ts => simp [reachesBorderIn, h]

theorem reachesBorderIn_append (g : Net) (sa : Nat) (q : List Trunk) :
    ∀ (p : List Trunk) (c : Nat), reachesBorderIn g sa c p = true →
      reachesBorderIn g sa c (p ++ q) = true := by
  intro p
  induction p with
  | nil =>
    intro c h
    exact reachesBorderIn_of_border g sa c h q
  | cons t ts ih =>
    intro c h
    rw [reachesBorderIn] at h
    rcases Bool.or_eq_true_iff.mp h with hb | hrec
    · simp only [List.cons_append, reachesBorderIn, hb, Bool.true_or]
    · rcases Bool.and_eq_true_iff.mp hrec with ⟨hin, hr⟩
      simp only [List.cons_append, reachesBorderIn, List.append_eq, hin,
        ih _ hr, Bool.and_self, Bool.or_true]

theorem stays_of_reaches (g : Net) (sa : Nat) :
    ∀ (p : List Trunk) (c : Nat), reachesBorderIn g sa c p = true →
      staysInSourceUntilBorder g sa c p = true := by
  intro p
  induction p with
  | nil => intro c _; rfl
  | cons t ts ih =>
    intro c h
    rw [reachesBorderIn] at h
    rw [staysInSourceUntilBorder]
    rcases Bool.or_eq_true_iff.mp h with hb | hrec
    · rw [if_pos hb]
    · rcases Bool.and_eq_true_iff.mp hrec with ⟨hin, hr⟩
      by_cases hb : isBorder g c = true
      · rw [if_pos hb]
      · rw [if_neg hb, hin, ih _ hr]
        rfl

theorem stays_of_allIn (g : Net) (sa : Nat) :
    ∀ (p : List Trunk) (c : Nat), sa ∈ g.nodeAreas c →
      (∀ x ∈ walkNodes c p, sa ∈ g.nodeAreas x) →
      staysInSourceUntilBorder g sa c p = true := by
  intro p
  induction p with
  | nil => intro c _ _; rfl
  | cons t ts ih =>
    intro c hc hall
    rw [staysInSourceUntilBorder]
    by_cases hb : isBorder g c = true
    · rw [if_pos hb]
    · rw [if_neg hb]
      have h1 : sa ∈ g.nodeAreas (t.other c) := by
        apply hall
        rw [walkNodes]
        exact List.mem_cons.mpr (Or.inl rfl)
      have h2 : ∀ x ∈ walkNodes (t.other c) ts, sa ∈ g.nodeAreas x := by
        intro x hx
        apply hall
        rw [walkNodes]
        exact List.mem_cons.mpr (Or.inr hx)
      simp [hc, ih _ h1 h2]

theorem reaches_of_allIn_border (g : Net) (sa : Nat) :
    ∀ (p : List Trunk) (c : Nat), sa ∈ g.nodeAreas c →
      (∀ x ∈ walkNodes c p, sa ∈ g.nodeAreas x) →
      isBorder g (walkEnd c p) = true →
      reachesBorderIn g sa c p = true := by
  intro p
  induction p with
  | nil => intro c _ _ hb; exact hb
  | cons t ts ih =>
    intro c hc hall hb
    rw [reachesBorderIn]
    have h1 : sa ∈ g.nodeAreas (t.other c) := by
      apply hall; rw [walkNodes]; exact List.mem_cons.mpr (Or.inl rfl)
    have h2 : ∀ x ∈ walkNodes (t.other c) ts, sa ∈ g.nodeAreas x := by
      intro x hx; apply hall; rw [walkNodes]
      exact List.mem_cons.mpr (Or.inr hx)
    have h3 : isBorder g (walkEnd (t.other c) ts) = true := hb
    simp [hc, ih _ h1 h2 h3]

theorem ospfNextStep_le (g : Net) (ta node : Nat) {step : Nat}
    (h : step ≤ 2) : ospfNextStep g ta node step ≤ 2 := by
  simp only [ospfNextStep]
  split_ifs <;> omega

/-- Every entry the OSPF search ever holds — and hence every path it
returns — carries only trunks of the source area, the backbone or the
target area. -/
theorem ospf_run_region_ok (g : Net) (target sa ta : Nat) :
    ∀ {fuel : Nat} {st : OspfState} {r : List Nat × List Trunk},
      (∀ e ∈ st.heap, e.step ≤ 2 ∧ ospfPathOk g sa ta e.path) →
      iterStep (ospfStep g target sa ta) fuel st = some r →
      ospfPathOk g sa ta r.2 := by
  intro fuel st r hInv hrun
  refine iterStep_inv
    (fun s => ∀ e ∈ s.heap, e.step ≤ 2 ∧ ospfPathOk g sa ta e.path)
    (fun r => ospfPathOk g sa ta r.2) ?_ hInv hrun
  intro s hs
  cases hh : s.heap with
  | nil =>
    simp only [ospfStep, hh]
    intro t ht
    exact absurd ht (List.not_mem_nil t)
  | cons e rest =>
    simp only [ospfStep, hh]
    by_cases hv : (e.node, e.step) ∈ s.visited
    · simp only [if_pos hv]
      intro x hx
      exact hs x (by rw [hh]; exact List.mem_cons.mpr (Or.inr hx))
    · simp only [if_neg hv]
      by_cases htar : e.node = target
      · simp only [if_pos htar]
        exact (hs e (by rw [hh]; exact List.mem_cons.mpr (Or.inl rfl))).2
      · simp only [if_neg htar]
        intro x hx
        rcases mem_pushAll hx with hr | ⟨tk, _, hf⟩
        · exact hs x (by rw [hh]; exact List.mem_cons.mpr (Or.inr hr))
        · have he := hs e (by rw [hh]; exact List.mem_cons.mpr (Or.inl rfl))
          by_cases hc : (tk.other e.node) ∈ g.asNodes ∧ tk.tid ∈ g.asTrunks ∧
              (ospfNextStep g ta e.node e.step = 0 → sa ∈ g.trunkAreas tk.tid) ∧
              (ospfNextStep g ta e.node e.step = 1 → bbId ∈ g.trunkAreas tk.tid) ∧
              (ospfNextStep g ta e.node e.step = 2 → ta ∈ g.trunkAreas tk.tid)
          · rw [if_pos hc] at hf
            injection hf with hf
            subst hf
            constructor
            · exact ospfNextStep_le g ta e.node he.1
            · intro t' ht'
              rcases List.mem_append.mp ht' with hp | hlast
              · exact he.2 t' hp
              · have ht'' : t' = tk := List.mem_singleton.mp hlast
                subst ht''
                have hle := ospfNextStep_le g ta e.node he.1
                have h3 : ospfNextStep g ta e.node e.step = 0 ∨
                    ospfNextStep g ta e.node e.step = 1 ∨
                    ospfNextStep g ta e.node e.step = 2 := by omega
                rcases h3 with h0 | h1 | h2
                · exact Or.inl (hc.2.2.1 h0)
                · exact Or.inr (Or.inl (hc.2.2.2.1 h1))
                · exact Or.inr (Or.inr (hc.2.2.2.2 h2))
          · rw [if_neg hc] at hf
            exact Option.noConfusion hf

/-- When the IS-IS search starts with every pending path inside the source
area (in particular in its initial phase-`false` state), every returned path
stays inside the source area until its first border router: the phase flips
only at a border router, and after the flip every pending path extends the
border-reaching one the heap was cleared for. -/
theorem isis_run_stays_in_source (g : Net) (target sa ta source : Nat)
    (hsrc : sa ∈ g.nodeAreas source) :
    ∀ {fuel : Nat} {st : IsisState} {r : List Nat × List Trunk},
      (∀ e ∈ st.heap,
        walkEnd source e.path = e.node ∧
        (st.step = true → reachesBorderIn g sa source e.path = true) ∧
        (st.step = false → ∀ x ∈ walkNodes source e.path, sa ∈ g.nodeAreas x)) →
      iterStep (isisStep g target sa ta) fuel st = some r →
      staysInSourceUntilBorder g sa source r.2 = true := by
  intro fuel st r hInv hrun
  refine iterStep_inv
    (fun s => ∀ e ∈ s.heap,
      walkEnd source e.path = e.node ∧
      (s.step = true → reachesBorderIn g sa source e.path = true) ∧
      (s.step = false → ∀ x ∈ walkNodes source e.path, sa ∈ g.nodeAreas x))
    (fun r => staysInSourceUntilBorder g sa source r.2 = true) ?_ hInv hrun
  intro s hs
  cases hh : s.heap with
  | nil => simp only [isisStep, hh]; rfl
  | cons e rest =>
    have he := hs e (by rw [hh]; exact List.mem_cons.mpr (Or.inl rfl))
    have hrest : ∀ x ∈ rest, walkEnd source x.path = x.node ∧
        (s.step = true → reachesBorderIn g sa source x.path = true) ∧
        (s.step = false → ∀ y ∈ walkNodes source x.path, sa ∈ g.nodeAreas y) :=
      fun x hx => hs x (by rw [hh]; exact List.mem_cons.mpr (Or.inr hx))
    simp only [isisStep, hh]
    by_cases hv : e.node ∈ s.visited
    · simp only [if_pos hv]
      exact hrest
    · simp only [if_neg hv]
      by_cases htar : e.node = target
      · simp only [if_pos htar]
        cases hstep : s.step with
        | true => exact stays_of_reaches g sa e.path source (he.2.1 hstep)
        | false => exact stays_of_allIn g sa e.path source hsrc (he.2.2 hstep)
      · simp only [if_neg htar]
        cases hstep : s.step with
        | true =>
          simp only [hstep, Bool.not_true, Bool.false_and, Bool.false_eq_true,
            if_neg, ite_false]
          intro x hx
          rcases mem_pushAll hx with hbase | ⟨tk, _, hf⟩
          · have hxr := hrest x hbase
            exact ⟨hxr.1, fun _ => hxr.2.1 hstep, fun hF => absurd hF (by simp)⟩
          · by_cases hc : (tk.other e.node) ∈ g.asNodes ∧ tk.tid ∈ g.asTrunks ∧
                ((true : Bool) = false → sa ∈ g.nodeAreas (tk.other e.node)) ∧
                ((true : Bool) = true →
                  (bbId ∈ g.nodeAreas (tk.other e.node) ∨
                   ta ∈ g.nodeAreas (tk.other e.node)))
            · rw [if_pos hc] at hf
              injection hf with hf
              subst hf
              refine ⟨?_, fun _ => ?_, fun hF => absurd hF (by simp)⟩
              · rw [walkEnd_append, he.1]
              · exact reachesBorderIn_append g sa [tk] e.path source (he.2.1 hstep)
            · rw [if_neg hc] at hf
              exact Option.noConfusion hf
        | false =>
          cases hb : isBorder g e.node with
          | false =>
            simp only [hstep, Bool.not_false, Bool.true_and, hb,
              Bool.false_eq_true, if_neg, ite_false]
            intro x hx
            rcases mem_pushAll hx with hbase | ⟨tk, _, hf⟩
            · have hxr := hrest x hbase
              exact ⟨hxr.1, fun hT => absurd hT (by simp),
                fun _ => hxr.2.2 hstep⟩
            · by_cases hc : (tk.other e.node) ∈ g.asNodes ∧ tk.tid ∈ g.asTrunks ∧
                  ((false : Bool) = false → sa ∈ g.nodeAreas (tk.other e.node)) ∧
                  ((false : Bool) = true →
                    (bbId ∈ g.nodeAreas (tk.other e.node) ∨
                     ta ∈ g.nodeAreas (tk.other e.node)))
              · rw [if_pos hc] at hf
                injection hf with hf
                subst hf
                refine ⟨?_, fun hT => absurd hT (by simp), fun _ => ?_⟩
                · rw [walkEnd_append, he.1]
                · intro y hy
                  rw [walkNodes_append] at hy
                  rcases List.mem_append.mp hy with hold | hnew
                  · exact he.2.2 hstep y hold
                  · have : y = tk.other (walkEnd source e.path) :=
                      List.mem_singleton.mp hnew
                    subst this
                    rw [he.1]
                    exact hc.2.2.1 rfl
              · rw [if_neg hc] at hf
                exact Option.noConfusion hf
          | true =>
            simp only [hstep, Bool.not_false, Bool.true_and, hb, if_pos,
              ite_true]
            intro x hx
            rcases mem_pushAll hx with hbase | ⟨tk, _, hf⟩
            · exact absurd hbase (List.not_mem_nil x)
            · by_cases hc : (tk.other e.node) ∈ g.asNodes ∧ tk.tid ∈ g.asTrunks ∧
                  ((true : Bool) = false → sa ∈ g.nodeAreas (tk.other e.node)) ∧
                  ((true : Bool) = true →
                    (bbId ∈ g.nodeAreas (tk.other e.node) ∨
                     ta ∈ g.nodeAreas (tk.other e.node)))
              · rw [if_pos hc] at hf
                injection hf with hf
                subst hf
                have hreach : reachesBorderIn g sa source e.path = true := by
                  apply reaches_of_allIn_border g sa e.path source hsrc
                    (he.2.2 hstep)
                  rw [he.1]
                  exact hb
                refine ⟨?_, fun _ => ?_, fun hF => absurd hF (by simp)⟩
                · rw [walkEnd_append, he.1]
                · exact reachesBorderIn_append g sa [tk] e.path source hreach
              · rw [if_neg hc] at hf
                exact Option.noConfusion hf

/-- C7 amended: protocol routing respects regions in the following form.
Every path `OSPF_routing` returns uses only trunks of the source area, the
backbone or the target area (the phase filters admit nothing else).  Every
path `ISIS_routing` returns stays inside the source area until its first
border router, provided the search starts in its two-phase form — source
and target in different areas with the source outside the backbone; when
the source area is the backbone or equals the target area the search runs
single-phase over the backbone and target area and may leave the source
area with no border router (the counterexample). -/
theorem c7_protocol_routing_respects_regions :
    (∀ (g : Net) (source target fuel : Nat) (nv : List Nat) (p : List Trunk)
       (sa ta : Nat),
       ospfArea g source = some sa → ospfArea g target = some ta →
       OSPF_routing g source target fuel = some (nv, p) →
       ospfPathOk g sa ta p) ∧
    (∀ (g : Net) (source target fuel : Nat) (nv : List Nat) (p : List Trunk)
       (sa ta : Nat),
       g.nodeAreas source = [sa] → g.nodeAreas target = [ta] →
       sa ≠ bbId → sa ≠ ta →
       ISIS_routing g source target fuel = some (nv, p) →
       staysInSourceUntilBorder g sa source p = true) := by
  constructor
  · intro g source target fuel nv p sa ta hsa hta hrun
    unfold OSPF_routing at hrun
    rw [hsa, hta] at hrun
    refine ospf_run_region_ok g target sa ta ?_ hrun
    intro e he
    have : e = ⟨.val 0, source, [], if sa = ta then 2 else if sa = bbId then 1 else 0⟩ :=
      List.mem_singleton.mp he
    subst this
    constructor
    · show (if sa = ta then 2 else if sa = bbId then 1 else 0) ≤ 2
      split_ifs <;> omega
    · intro t ht
      exact absurd ht (List.not_mem_nil t)
  · intro g source target fuel nv p sa ta hsa hta hsb hst hrun
    have h1 : isisArea g source = some sa := by unfold isisArea; rw [hsa]
    have h2 : isisArea g target = some ta := by unfold isisArea; rw [hta]
    unfold ISIS_routing at hrun
    rw [h1, h2] at hrun
    have hflag : (sa == bbId || sa == ta) = false := by
      rw [Bool.or_eq_false_iff]
      exact ⟨beq_eq_false_iff_ne.mpr hsb, beq_eq_false_iff_ne.mpr hst⟩
    have hsrc : sa ∈ g.nodeAreas source := by
      rw [hsa]; exact List.mem_singleton.mpr rfl
    refine isis_run_stays_in_source g target sa ta source hsrc ?_ hrun
    intro e he
    have : e = ⟨.val 0, source, []⟩ := List.mem_singleton.mp he
    subst this
    refine ⟨rfl, fun hT => ?_, fun _ => ?_⟩
    · rw [hflag] at hT
      exact absurd hT (by simp)
    · intro x hx
      exact absurd hx (List.not_mem_nil x)

/-- Witness for the region theorem: the OSPF half applied to the one-node
fixture `gO` and the IS-IS half applied to the two-area fixture `gI`. -/
theorem c7_protocol_routing_respects_regions_witness :
    ospfPathOk gO 1 1 [] ∧ staysInSourceUntilBorder gI 1 1 [] = true :=
  ⟨c7_protocol_routing_respects_regions.1 gO 1 1 10 [] [] 1 1 (by rfl)
      (by rfl) (by rfl),
   c7_protocol_routing_respects_regions.2 gI 1 2 10 [] [] 1 2 (by rfl)
      (by rfl) (by decide) (by decide) (by rfl)⟩

/-! ## Frame lemmas for the cost-mutating loops -/

theorem saveFold_frame :
    ∀ (l : List Trunk) (acc : Net),
      (l.foldl saveBody acc).trunks = acc.trunks ∧
      (l.foldl saveBody acc).costSD = acc.costSD ∧
      (l.foldl saveBody acc).costDS = acc.costDS := by
  intro l
  induction l with
  | nil => intro acc; exact ⟨rfl, rfl, rfl⟩
  | cons t ts ih => intro acc; exact ih (saveBody acc t)

theorem saveFold_flow_not_mem :
    ∀ (l : List Trunk) (acc : Net) (i : Nat), (∀ tk ∈ l, tk.tid ≠ i) →
      (l.foldl saveBody acc).flowSD i = acc.flowSD i ∧
      (l.foldl saveBody acc).flowDS i = acc.flowDS i := by
  intro l
  induction l with
  | nil => intro acc i _; exact ⟨rfl, rfl⟩
  | cons t ts ih =>
    intro acc i hni
    have hne : t.tid ≠ i := hni t (List.mem_cons.mpr (Or.inl rfl))
    have := ih (saveBody acc t) i
      (fun tk htk => hni tk (List.mem_cons.mpr (Or.inr htk)))
    rw [List.foldl_cons]
    refine ⟨?_, ?_⟩
    · rw [this.1]
      show upd acc.flowSD t.tid (acc.costSD t.tid) i = acc.flowSD i
      unfold upd
      rw [if_neg (fun h => hne h.symm)]
    · rw [this.2]
      show upd acc.flowDS t.tid (acc.costDS t.tid) i = acc.flowDS i
      unfold upd
      rw [if_neg (fun h => hne h.symm)]

theorem saveFold_flow_mem :
    ∀ (l : List Trunk) (acc : Net) (i : Nat), (∃ tk ∈ l, tk.tid = i) →
      (l.foldl saveBody acc).flowSD i = acc.costSD i ∧
      (l.foldl saveBody acc).flowDS i = acc.costDS i := by
  intro l
  induction l with
  | nil =>
    intro acc i h
    obtain ⟨tk, htk, _⟩ := h
    exact absurd htk (List.not_mem_nil tk)
  | cons t ts ih =>
    intro acc i h
    rw [List.foldl_cons]
    by_cases hex : ∃ tk ∈ ts, tk.tid = i
    · have := ih (saveBody acc t) i hex
      rw [this.1, this.2]
      exact ⟨rfl, rfl⟩
    · have hti : t.tid = i := by
        obtain ⟨tk, htk, htid⟩ := h
        rcases List.mem_cons.mp htk with rfl | hmem
        · exact htid
        · exact absurd ⟨tk, hmem, htid⟩ hex
      have hni : ∀ tk ∈ ts, tk.tid ≠ i := by
        intro tk htk hcon
        exact hex ⟨tk, htk, hcon⟩
      have := saveFold_flow_not_mem ts (saveBody acc t) i hni
      rw [this.1, this.2]
      subst hti
      constructor
      · show upd acc.flowSD t.tid (acc.costSD t.tid) t.tid = acc.costSD t.tid
        unfold upd
        rw [if_pos rfl]
      · show upd acc.flowDS t.tid (acc.costDS t.tid) t.tid = acc.costDS t.tid
        unfold upd
        rw [if_pos rfl]

theorem restoreFold_frame :
    ∀ (l : List Trunk) (acc : Net),
      (l.foldl restoreBody acc).trunks = acc.trunks ∧
      (l.foldl restoreBody acc).flowSD = acc.flowSD ∧
      (l.foldl restoreBody acc).flowDS = acc.flowDS := by
  intro l
  induction l with
  | nil => intro acc; exact ⟨rfl, rfl, rfl⟩
  | cons t ts ih => intro acc; exact ih (restoreBody acc t)

theorem restoreFold_cost_not_mem :
    ∀ (l : List Trunk) (acc : Net) (i : Nat), (∀ tk ∈ l, tk.tid ≠ i) →
      (l.foldl restoreBody acc).costSD i = acc.costSD i ∧
      (l.foldl restoreBody acc).costDS i = acc.costDS i := by
  intro l
  induction l with
  | nil => intro acc i _; exact ⟨rfl, rfl⟩
  | cons t ts ih =>
    intro acc i hni
    have hne : t.tid ≠ i := hni t (List.mem_cons.mpr (Or.inl rfl))
    have := ih (restoreBody acc t) i
      (fun tk htk => hni tk (List.mem_cons.mpr (Or.inr htk)))
    rw [List.foldl_cons]
    refine ⟨?_, ?_⟩
    · rw [this.1]
      show upd acc.costSD t.tid (acc.flowSD t.tid) i = acc.costSD i
      unfold upd
      rw [if_neg (fun h => hne h.symm)]
    · rw [this.2]
      show upd acc.costDS t.tid (acc.flowDS t.tid) i = acc.costDS i
      unfold upd
      rw [if_neg (fun h => hne h.symm)]

theorem restoreFold_cost_mem :
    ∀ (l : List Trunk) (acc : Net) (i : Nat), (∃ tk ∈ l, tk.tid = i) →
      (l.foldl restoreBody acc).costSD i = acc.flowSD i ∧
      (l.foldl restoreBody acc).costDS i = acc.flowDS i := by
  intro l
  induction l with
  | nil =>
    intro acc i h
    obtain ⟨tk, htk, _⟩ := h
    exact absurd htk (List.not_mem_nil tk)
  | cons t ts ih =>
    intro acc i h
    rw [List.foldl_cons]
    by_cases hex : ∃ tk ∈ ts, tk.tid = i
    · have := ih (restoreBody acc t) i hex
      rw [this.1, this.2]
      exact ⟨rfl, rfl⟩
    · have hti : t.tid = i := by
        obtain ⟨tk, htk, htid⟩ := h
        rcases List.mem_cons.mp htk with rfl | hmem
        · exact htid
        · exact absurd ⟨tk, hmem, htid⟩ hex
      have hni : ∀ tk ∈ ts, tk.tid ≠ i := by
        intro tk htk hcon
        exact hex ⟨tk, htk, hcon⟩
      have := restoreFold_cost_not_mem ts (restoreBody acc t) i hni
      rw [this.1, this.2]
      subst hti
      constructor
      · show upd acc.costSD t.tid (acc.flowSD t.tid) t.tid = acc.flowSD t.tid
        unfold upd
        rw [if_pos rfl]
      · show upd acc.costDS t.tid (acc.flowDS t.tid) t.tid = acc.flowDS t.tid
        unfold upd
        rw [if_pos rfl]

theorem bhTransform_frame :
    ∀ (p : List Trunk) (c : Nat) (h : Net),
      (bhTransform c p h).trunks = h.trunks ∧
      (bhTransform c p h).flowSD = h.flowSD ∧
      (bhTransform c p h).flowDS = h.flowDS := by
  intro p
  induction p with
  | nil => intro c h; exact ⟨rfl, rfl, rfl⟩
  | cons t ts ih =>
    intro c h
    rw [bhTransform]
    by_cases hc : c = t.src
    · simp only [if_pos hc]
      exact ih _ _
    · simp only [if_neg hc]
      exact ih _ _

theorem suReweight_frame :
    ∀ (p : List Trunk) (dist : Nat → EInt) (h : Net),
      (suReweight dist p h).trunks = h.trunks ∧
      (suReweight dist p h).flowSD = h.flowSD ∧
      (suReweight dist p h).flowDS = h.flowDS := by
  intro p
  induction p with
  | nil => intro dist h; exact ⟨rfl, rfl, rfl⟩
  | cons t ts ih => intro dist h; exact ih dist _

theorem suInfPath_frame :
    ∀ (p : List Trunk) (c : Nat) (h : Net),
      (suInfPath c p h).trunks = h.trunks ∧
      (suInfPath c p h).flowSD = h.flowSD ∧
      (suInfPath c p h).flowDS = h.flowDS := by
  intro p
  induction p with
  | nil => intro c h; exact ⟨rfl, rfl, rfl⟩
  | cons t ts ih =>
    intro c h
    rw [suInfPath]
    by_cases hc : c = t.src
    · simp only [if_pos hc]
      exact ih _ _
    · simp only [if_neg hc]
      exact ih _ _

/-- C9 amended: whenever `bhandari` returns, every trunk's directional
costs are back at their original values (the restore loop copies the saved
`flowSD/flowDS` values over them, and nothing between the save and the
restore touches the flow fields); the returned edge set is by construction
the symmetric difference of the A* path and the Bellman-Ford path.
Termination itself is not guaranteed: the `-1` reverse costs can create a
negative cycle that makes the Bellman-Ford traceback loop forever, even
when two trunk-disjoint paths exist (the counterexample). -/
theorem c9_bhandari_restores_costs_when_it_returns :
    ∀ (g : Net) (source target fuel : Nat) (res : List Trunk) (gfin : Net),
      bhandari g source target fuel = some (.ok (res, gfin)) →
      ∀ tk ∈ g.trunks, gfin.costSD tk.tid = g.costSD tk.tid ∧
        gfin.costDS tk.tid = g.costDS tk.tid := by
  intro g source target fuel res gfin hrun tk htk
  simp only [bhandari] at hrun
  cases hA : A_star (saveCosts g) source target fuel with
  | none => rw [hA] at hrun; exact Option.noConfusion hrun
  | some v =>
    obtain ⟨nv, p1⟩ := v
    rw [hA] at hrun
    dsimp only at hrun
    cases hB : bellman_ford (bhTransform source p1 (saveCosts g)) source target
        fuel with
    | none => rw [hB] at hrun; exact Option.noConfusion hrun
    | some exc =>
      rw [hB] at hrun
      cases exc with
      | error e => simp at hrun
      | ok pr =>
        obtain ⟨an, p2⟩ := pr
        simp only [Option.some.injEq, Except.ok.injEq, Prod.mk.injEq] at hrun
        obtain ⟨-, hfin⟩ := hrun
        subst hfin
        have hsave := saveFold_frame g.trunks g
        have htr := bhTransform_frame p1 source (saveCosts g)
        have hflow := bhTransform_frame p1 source (saveCosts g)
        set H := bhTransform source p1 (saveCosts g) with hH
        have htrunksH : H.trunks = g.trunks := by
          rw [htr.1]
          exact hsave.1
        have hex : ∃ tk' ∈ H.trunks, tk'.tid = tk.tid := by
          rw [htrunksH]; exact ⟨tk, htk, rfl⟩
        have hrc := restoreFold_cost_mem H.trunks H tk.tid hex
        have hsf := saveFold_flow_mem g.trunks g tk.tid ⟨tk, htk, rfl⟩
        unfold restoreCosts
        constructor
        · rw [hrc.1, hflow.2.1]
          exact hsf.1
        · rw [hrc.2, hflow.2.2]
          exact hsf.2

set_option maxRecDepth 100000 in
/-- Witness for the restoration theorem: `bhandari` on the triangle fixture
`gC10` returns, and trunk 1's costs come back restored. -/
theorem c9_bhandari_restores_costs_witness :
    (restoreCosts (bhTransform 1 [⟨1, 1, 2⟩, ⟨2, 2, 3⟩]
      (saveCosts gC10))).costSD (⟨1, 1, 2⟩ : Trunk).tid =
      gC10.costSD (⟨1, 1, 2⟩ : Trunk).tid ∧
    (restoreCosts (bhTransform 1 [⟨1, 1, 2⟩, ⟨2, 2, 3⟩]
      (saveCosts gC10))).costDS (⟨1, 1, 2⟩ : Trunk).tid =
      gC10.costDS (⟨1, 1, 2⟩ : Trunk).tid :=
  c9_bhandari_restores_costs_when_it_returns gC10 1 3 60
    (symmDiff [⟨1, 1, 2⟩, ⟨2, 2, 3⟩] [⟨3, 1, 3⟩])
    (restoreCosts (bhTransform 1 [⟨1, 1, 2⟩, ⟨2, 2, 3⟩] (saveCosts gC10)))
    (by rfl) ⟨1, 1, 2⟩ (by decide)

set_option maxRecDepth 200000 in
/-- C9 counterexample: on `gC9`, nodes 1 and 4 admit two trunk-disjoint
simple paths, yet `bhandari` never returns, whatever the fuel: after the
first path's costs are poisoned, the `-1` reverse arc of trunk 2 together
with the parallel zero-cost trunk 3 forms a negative cycle; Bellman-Ford's
predecessor maps become cyclic (node 3 points back to node 2 via trunk 3,
node 2 points to node 3 via trunk 2) and its traceback `while` loop runs
forever. -/
theorem c9_bhandari_loops_forever :
    (∀ fuel, bhandari gC9 1 4 fuel = none) ∧
    isWalkTo 4 1 [⟨1, 1, 2⟩, ⟨2, 2, 3⟩, ⟨4, 3, 4⟩] = true ∧
    isWalkTo 4 1 [⟨6, 1, 4⟩] = true ∧
    List.Nodup (1 :: walkNodes 1 [⟨1, 1, 2⟩, ⟨2, 2, 3⟩, ⟨4, 3, 4⟩]) ∧
    List.Nodup (1 :: walkNodes 1 [⟨6, 1, 4⟩]) ∧
    (∀ t ∈ ([⟨1, 1, 2⟩, ⟨2, 2, 3⟩, ⟨4, 3, 4⟩] : List Trunk),
      t ∉ ([⟨6, 1, 4⟩] : List Trunk)) := by
  refine ⟨?_, by decide, by decide, by decide, by decide, by decide⟩
  intro fuel
  simp only [bhandari]
  cases hA : A_star (saveCosts gC9) 1 4 fuel with
  | none => rfl
  | some v =>
    have hA80 : A_star (saveCosts gC9) 1 4 80 =
        some ([1, 2, 3, 4], [⟨1, 1, 2⟩, ⟨2, 2, 3⟩, ⟨4, 3, 4⟩]) := by decide
    have hv : v = ([1, 2, 3, 4], [⟨1, 1, 2⟩, ⟨2, 2, 3⟩, ⟨4, 3, 4⟩]) := by
      unfold A_star at hA hA80
      rcases iterStep_none_or hA80 fuel with h | h
      · rw [hA] at h
        exact Option.noConfusion h
      · rw [hA] at h
        exact Option.some_inj.mp h
    subst hv
    dsimp only
    have hdist : ¬ (bfMaps
        (bhTransform 1 [⟨1, 1, 2⟩, ⟨2, 2, 3⟩, ⟨4, 3, 4⟩] (saveCosts gC9))
        1).dist 4 = EInt.inf := by decide
    have hp4 : (bfMaps
        (bhTransform 1 [⟨1, 1, 2⟩, ⟨2, 2, 3⟩, ⟨4, 3, 4⟩] (saveCosts gC9))
        1).precN 4 = some 3 := by decide
    have hp3 : (bfMaps
        (bhTransform 1 [⟨1, 1, 2⟩, ⟨2, 2, 3⟩, ⟨4, 3, 4⟩] (saveCosts gC9))
        1).precN 3 = some 2 := by decide
    have hp2 : (bfMaps
        (bhTransform 1 [⟨1, 1, 2⟩, ⟨2, 2, 3⟩, ⟨4, 3, 4⟩] (saveCosts gC9))
        1).precN 2 = some 3 := by decide
    have hgo : ∀ (f : Nat),
        (∀ (accN : List Nat) (accL : List (Option Trunk)),
          bfTraceGo (bfMaps
            (bhTransform 1 [⟨1, 1, 2⟩, ⟨2, 2, 3⟩, ⟨4, 3, 4⟩] (saveCosts gC9))
            1).precN (bfMaps
            (bhTransform 1 [⟨1, 1, 2⟩, ⟨2, 2, 3⟩, ⟨4, 3, 4⟩] (saveCosts gC9))
            1).precL 1 f 3 accN accL = none) ∧
        (∀ (accN : List Nat) (accL : List (Option Trunk)),
          bfTraceGo (bfMaps
            (bhTransform 1 [⟨1, 1, 2⟩, ⟨2, 2, 3⟩, ⟨4, 3, 4⟩] (saveCosts gC9))
            1).precN (bfMaps
            (bhTransform 1 [⟨1, 1, 2⟩, ⟨2, 2, 3⟩, ⟨4, 3, 4⟩] (saveCosts gC9))
            1).precL 1 f 2 accN accL = none) := by
      intro f
      induction f with
      | zero => exact ⟨fun _ _ => rfl, fun _ _ => rfl⟩
      | succ n ih =>
        constructor
        · intro accN accL
          rw [bfTraceGo, if_neg (by decide : ¬(3 : Nat) = 1), hp3]
          exact ih.2 _ _
        · intro accN accL
          rw [bfTraceGo, if_neg (by decide : ¬(2 : Nat) = 1), hp2]
          exact ih.1 _ _
    have hBF : bellman_ford
        (bhTransform 1 [⟨1, 1, 2⟩, ⟨2, 2, 3⟩, ⟨4, 3, 4⟩] (saveCosts gC9))
        1 4 fuel = none := by
      simp only [bellman_ford]
      rw [if_neg hdist]
      cases fuel with
      | zero => rfl
      | succ n =>
        rw [bfTraceGo, if_neg (by decide : ¬(4 : Nat) = 1), hp4]
        dsimp only
        rw [(hgo n).1]
    rw [hBF]

set_option maxRecDepth 200000 in
/-- C10: `suurbale` returns without restoring the costs.  Universally, the
flow fields of the returned network hold the original directional costs of
every trunk (they are overwritten from the costs at entry and nothing later
touches them).  Concretely on `gC10`: after `suurbale(1, 3)` the first-path
trunks 1 and 2 have `costSD = inf` (originally 1) and their reverse costs
hold the tree-reweighted value 2, while the originals survive only in the
flow fields; `bhandari` on the same input hands the costs back restored. -/
theorem c10_suurbale_leaves_costs_modified :
    (∀ (g : Net) (source target fuel : Nat) (res : List Trunk) (gfin : Net),
      suurbale g source target fuel = some (.ok (res, gfin)) →
      ∀ tk ∈ g.trunks, gfin.flowSD tk.tid = g.costSD tk.tid ∧
        gfin.flowDS tk.tid = g.costDS tk.tid) ∧
    resCostSD (suurbale gC10 1 3 60) 1 = some .inf ∧
    gC10.costSD 1 = .val 1 ∧
    resCostDS (suurbale gC10 1 3 60) 1 = some (.val 2) ∧
    resCostSD (suurbale gC10 1 3 60) 2 = some .inf ∧
    resFlowSD (suurbale gC10 1 3 60) 1 = some (.val 1) ∧
    resCostSD (bhandari gC10 1 3 60) 1 = some (.val 1) ∧
    resCostSD (bhandari gC10 1 3 60) 2 = some (.val 1) := by
  refine ⟨?_, by decide, by decide, by decide, by decide, by decide,
    by decide, by decide⟩
  intro g source target fuel res gfin hrun tk htk
  simp only [suurbale] at hrun
  cases hD : dijkstra (saveCosts g) source target fuel with
  | none => rw [hD] at hrun; exact Option.noConfusion hrun
  | some exc =>
    rw [hD] at hrun
    cases exc with
    | error e => simp at hrun
    | ok dres =>
      dsimp only at hrun
      cases hA : A_star
          (suInfPath source dres.path
            (suReweight dres.dist dres.tree (saveCosts g)))
          source target fuel with
      | none => rw [hA] at hrun; exact Option.noConfusion hrun
      | some v =>
        obtain ⟨nv2, p2⟩ := v
        rw [hA] at hrun
        simp only [Option.some.injEq, Except.ok.injEq, Prod.mk.injEq] at hrun
        obtain ⟨-, hfin⟩ := hrun
        subst hfin
        have h1 := suInfPath_frame dres.path source
          (suReweight dres.dist dres.tree (saveCosts g))
        have h2 := suReweight_frame dres.tree dres.dist (saveCosts g)
        have hs := saveFold_flow_mem g.trunks g tk.tid ⟨tk, htk, rfl⟩
        constructor
        · rw [h1.2.1, h2.2.1]
          exact hs.1
        · rw [h1.2.2, h2.2.2]
          exact hs.2

set_option maxRecDepth 200000 in
/-- Witness for the `suurbale` frame theorem: on the triangle fixture the
returned network's flow fields hold trunk 1's original costs. -/
theorem c10_suurbale_leaves_costs_modified_witness :
    (match suurbale gC10 1 3 60 with
     | some (.ok (_, G)) => G
     | _ => gC10).flowSD (⟨1, 1, 2⟩ : Trunk).tid =
      gC10.costSD (⟨1, 1, 2⟩ : Trunk).tid ∧
    (match suurbale gC10 1 3 60 with
     | some (.ok (_, G)) => G
     | _ => gC10).flowDS (⟨1, 1, 2⟩ : Trunk).tid =
      gC10.costDS (⟨1, 1, 2⟩ : Trunk).tid :=
  c10_suurbale_leaves_costs_modified.1 gC10 1 3 60
    (match suurbale gC10 1 3 60 with
     | some (.ok (p, _)) => p
     | _ => [])
    (match suurbale gC10 1 3 60 with
     | some (.ok (_, G)) => G
     | _ => gC10)
    (by rfl) ⟨1, 1, 2⟩ (by decide)

end NetDim
